import Mathlib

/-!
# A file-backed JSON document store: the storage driver of `main.go`

The driver maps a pair (collection, resource) to a file, writes records through
a temporary file and a rename, resolves paths with an optional `.json` suffix
and keeps one lock per collection.

Embedding.
* Go strings are `String`; the lexical path functions of `path/filepath`
  (`Clean`, `Join`) are written out on the characters of a string, for
  slash-separated paths.
* The filesystem is a list of entries `(cleaned path, node)`; a node is a
  regular file with its content or a directory.  The working directory `.` and
  the root `/` are implicit: they have no entry and only serve as parents.
  The `os` and `ioutil` calls the driver makes are functions on that list.  An
  operation fails for structural reasons only (missing entry, missing parent,
  a directory where a file is needed and the reverse); there are no permissions,
  quotas or device errors.
* `encoding/json` is a parameter, the structure `Codec`.
* The driver is a value threaded through the operations: its `dir` field, the
  lock registry, and the set of per-collection locks currently held.  The
  logger has no effect on results and is left out.
-/

namespace Database

/-! ## Lexical paths (`path/filepath`) -/

/-- Split a character list at every slash; `a//b` has an empty middle part. -/
def splitSlash : List Char → List (List Char)
  | [] => [[]]
  | c :: cs =>
    if c = '/' then [] :: splitSlash cs
    else
      match splitSlash cs with
      | [] => [[c]]
      | h :: t => (c :: h) :: t

/-- One element of `Clean`: `out` is the stack of kept elements, last one first.
Empty elements and `.` are dropped; `..` removes the element before it, is kept
when there is none to remove in a relative path, and is dropped at the root. -/
def cleanStep (rooted : Bool) (out : List (List Char)) (comp : List Char) :
    List (List Char) :=
  if comp = [] ∨ comp = ['.'] then out
  else if comp = ['.', '.'] then
    match out with
    | [] => if rooted then [] else [comp]
    | top :: rest => if top = ['.', '.'] then comp :: out else rest
  else comp :: out

/-- Put slashes between the elements. -/
def joinSlash : List (List Char) → List Char
  | [] => []
  | [c] => c
  | c :: cs => c ++ '/' :: joinSlash cs

/-- The function `filepath.Clean` on characters. -/
def cleanChars (p : List Char) : List Char :=
  if p = [] then ['.']
  else
    let rooted := p.head? = some '/'
    let body := joinSlash ((splitSlash p).foldl (cleanStep rooted) []).reverse
    let r := if rooted then '/' :: body else body
    if r = [] then ['.'] else r

/-- The function `filepath.Clean`. -/
def clean (p : String) : String := ⟨cleanChars p.data⟩

/-- The function `filepath.Join`: leading empty elements are skipped, the rest is
joined with slashes and cleaned; with no non-empty element the result is empty. -/
def join (elem : List String) : String :=
  match elem.dropWhile (fun e => e.data = []) with
  | [] => ""
  | es => ⟨cleanChars (joinSlash (es.map String.data))⟩

/-- The characters of `q` after the prefix `p`, when `p` is a prefix of `q`. -/
def dropPrefix : List Char → List Char → Option (List Char)
  | [], q => some q
  | _ :: _, [] => none
  | a :: p, b :: q => if a = b then dropPrefix p q else none

/-- The parent of a cleaned path (`filepath.Dir`): `.` for a single relative
element, `/` right under the root. -/
def parentDir (p : String) : String :=
  match (p.data.reverse.dropWhile (fun c => c ≠ '/')) with
  | [] => "."
  | _ :: rest => if rest = [] then "/" else ⟨rest.reverse⟩

/-- The prefixes of a path that end before a slash, then the path itself, from
the top down: `a/b/c` gives `a`, `a/b`, `a/b/c`. -/
def prefixesAux (acc : List Char) : List Char → List (List Char)
  | [] => [acc]
  | c :: cs =>
    if c = '/' ∧ acc ≠ [] then acc :: prefixesAux (acc ++ [c]) cs
    else prefixesAux (acc ++ [c]) cs

/-- A path and its ancestors, nearest first. -/
def selfAndAncestors (p : String) : List String :=
  ((prefixesAux [] p.data).map String.mk).reverse

/-- A plain path element, one that `Clean` keeps as it is: not empty, without a
slash, and neither `.` nor `..`. -/
def keptElem (s : List Char) : Prop :=
  s ≠ [] ∧ '/' ∉ s ∧ s ≠ ['.'] ∧ s ≠ ['.', '.']

instance (s : List Char) : Decidable (keptElem s) := by
  unfold keptElem; infer_instance

/-- Is the path rooted: does it start with a slash. -/
def rootedChars (p : List Char) : Bool := decide (p.head? = some '/')

/-- The stack of kept elements after `Clean` has gone through the whole path. -/
def stackOf (p : List Char) : List (List Char) :=
  (splitSlash p).foldl (cleanStep (rootedChars p)) []

/-- The path `Clean` returns for a stack of kept elements. -/
def render (rt : Bool) (out : List (List Char)) : List Char :=
  if (if rt then '/' :: joinSlash out.reverse else joinSlash out.reverse) = [] then ['.']
  else if rt then '/' :: joinSlash out.reverse else joinSlash out.reverse

/-- The last slash-separated element of a name. -/
def lastElem (r : String) : List Char := (splitSlash r.data).getLastD []

/-- The characters that `Join` hands to `Clean` for a root field and a collection
name: the collection alone when the root field is empty. -/
def joinedChars (a c : String) : List Char :=
  if a.data = [] then c.data else a.data ++ '/' :: c.data

/-- A stack as `Clean` builds it: kept elements on top of a run of `..`, which
is empty in a rooted path. -/
def ValidStack (rt : Bool) (out : List (List Char)) : Prop :=
  ∃ (K : List (List Char)) (n : Nat), out = K ++ List.replicate n ['.', '.'] ∧
    (∀ k ∈ K, keptElem k) ∧ (rt = true → n = 0)

/-! ## The filesystem -/

/-- What a path names: a regular file with its content, or a directory. -/
inductive Node
  | file (content : String)
  | dir
  deriving DecidableEq, Repr

/-- The errors the driver can return. -/
inductive Error
  | errorf (msg : String)
  | notExist
  | notDir
  | isDir
  | exist
  | json
  deriving DecidableEq, Repr

/-- A filesystem state: the entries, keyed by cleaned path. -/
abbrev FS := List (String × Node)

/-- The node a path names, the first entry with that key. -/
def lookup : FS → String → Option Node
  | [], _ => none
  | (k, n) :: rest, p => if k = p then some n else lookup rest p

/-- The function `os.Stat`, as `(fi, err)`. The empty path names nothing. The
implicit directories `.` and `/` have no entry, so a call on one of them reports
absence. -/
def osStat (fs : FS) (path : String) : Option Node × Option Error :=
  if path = "" then (none, some Error.notExist)
  else
    match lookup fs path with
    | some n => (some n, none)
    | none => (none, some Error.notExist)

/-- The function `os.IsNotExist`. -/
def isNotExist : Option Error → Bool
  | some Error.notExist => true
  | _ => false

/-- Is `q` a directory that can hold a new entry: the working directory, the
root, or a directory entry. -/
def hasDir (fs : FS) (q : String) : Bool :=
  q = "." || q = "/" || lookup fs q = some Node.dir

/-- Is `q` the path `p` or a path beneath it; the empty path names nothing. -/
def under (p q : String) : Bool :=
  p ≠ "" && (q = p || (dropPrefix (p.data ++ ['/']) q.data).isSome)

/-- The function `os.Mkdir`. -/
def osMkdir (fs : FS) (p : String) : FS × Option Error :=
  if p = "" then (fs, some Error.notExist)
  else if p = "." ∨ p = "/" ∨ lookup fs p ≠ none then (fs, some Error.exist)
  else if hasDir fs (parentDir p) then ((p, Node.dir) :: fs, none)
  else (fs, some Error.notExist)

/-- The recursion of `os.MkdirAll` over a path and its ancestors, nearest first:
an existing directory ends it with success, an existing file with an error,
otherwise the parent is made first and then the path itself. -/
def osMkdirAllAux (fs : FS) : List String → FS × Option Error
  | [] => (fs, none)
  | q :: rest =>
    if q = "." ∨ q = "/" then (fs, none)
    else
      match osStat fs q with
      | (some Node.dir, _) => (fs, none)
      | (some (Node.file _), _) => (fs, some Error.notDir)
      | (none, _) =>
        match osMkdirAllAux fs rest with
        | (fs1, some err) => (fs1, some err)
        | (fs1, none) => osMkdir fs1 q

/-- The function `os.MkdirAll`. -/
def osMkdirAll (fs : FS) (path : String) : FS × Option Error :=
  osMkdirAllAux fs (selfAndAncestors path)

/-- The function `ioutil.WriteFile`: create or truncate the file and write `b`. -/
def ioutilWriteFile (fs : FS) (filename : String) (b : String) : FS × Option Error :=
  if filename = "" then (fs, some Error.notExist)
  else if lookup fs filename = some Node.dir then (fs, some Error.isDir)
  else if hasDir fs (parentDir filename) then
    ((filename, Node.file b) :: fs.filter (fun e => e.1 ≠ filename), none)
  else (fs, some Error.notExist)

/-- The function `os.Rename` for a regular file: the entry moves onto the new
path and replaces a regular file there. A directory moves with its subtree onto
a free path. -/
def osRename (fs : FS) (oldpath newpath : String) : FS × Option Error :=
  match lookup fs oldpath with
  | none => (fs, some Error.notExist)
  | some (Node.file c) =>
    if lookup fs newpath = some Node.dir then (fs, some Error.exist)
    else if hasDir fs (parentDir newpath) then
      ((newpath, Node.file c) ::
        fs.filter (fun e => e.1 ≠ oldpath ∧ e.1 ≠ newpath), none)
    else (fs, some Error.notExist)
  | some Node.dir =>
    if lookup fs newpath ≠ none then (fs, some Error.exist)
    else if hasDir fs (parentDir newpath) then
      (fs.map (fun e =>
        match dropPrefix oldpath.data e.1.data with
        | some rest => if under oldpath e.1 then (⟨newpath.data ++ rest⟩, e.2) else e
        | none => e), none)
    else (fs, some Error.notExist)

/-- The function `os.RemoveAll`: the path and everything beneath it go; a path
that does not exist is no error, and the empty path has nothing beneath it. -/
def osRemoveAll (fs : FS) (path : String) : FS × Option Error :=
  (fs.filter (fun e => !under path e.1), none)

/-- The function `ioutil.ReadFile`, as `(bytes, err)`. -/
def ioutilReadFile (fs : FS) (filename : String) : String × Option Error :=
  match (osStat fs filename).1 with
  | some (Node.file c) => (c, none)
  | some Node.dir => ("", some Error.isDir)
  | none => ("", some Error.notExist)

/-- The name of `key` inside the directory `dir`, when `key` is directly in it. -/
def childName (dir key : String) : Option String :=
  match dropPrefix (dir.data ++ ['/']) key.data with
  | some rest => if rest ≠ [] ∧ '/' ∉ rest then some ⟨rest⟩ else none
  | none => none

/-- Byte order on file names. -/
def leChars : List Char → List Char → Bool
  | [], _ => true
  | _ :: _, [] => false
  | a :: as, b :: bs =>
    if a.toNat < b.toNat then true
    else if b.toNat < a.toNat then false
    else leChars as bs

/-- The function `ioutil.ReadDir`, as `(names, err)`: the names of the entries
directly in the directory, sorted by file name. -/
def ioutilReadDir (fs : FS) (dirname : String) : List String × Option Error :=
  match (osStat fs dirname).1 with
  | some Node.dir =>
    ((fs.filterMap (fun e => childName dirname e.1)).insertionSort
      (fun a b => leChars a.data b.data = true), none)
  | some (Node.file _) => ([], some Error.notDir)
  | none => ([], some Error.notExist)

/-! ## The driver -/

/-- The part of `encoding/json` the driver calls; `none` stands for a returned
error. -/
structure Codec (V : Type) where
  marshalIndent : V → String → String → Option String
  unmarshal : String → Option V

/-- The struct `Driver`: `mutexes` maps a collection name to its lock (a lock is
identified by a number), `dir` is the root field, `locked` lists the locks that
are held. The top-level `mutex` is taken and released inside
`getOrCreateMutex`. -/
structure Driver where
  mutexes : List (String × Nat)
  dir : String
  locked : List Nat
  deriving DecidableEq, Repr

/-- The lock registered under a name. -/
def lookupMutex : List (String × Nat) → String → Option Nat
  | [], _ => none
  | (k, m) :: rest, c => if k = c then some m else lookupMutex rest c

/-- A lock that is none of the registered ones (`&sync.Mutex{}`). -/
def freshMutex (reg : List (String × Nat)) : Nat :=
  (reg.map (fun e => e.2)).foldr max 0 + 1

/-- The result of `New`: the driver, the error, and the filesystem. The struct
literal of `New` sets `mutex`, `mutexes` and `log`; `dir` keeps its zero value. -/
def New (dir : String) (fs : FS) : Driver × Option Error × FS :=
  let dir := clean dir
  let driver : Driver := { mutexes := [], dir := "", locked := [] }
  if (osStat fs dir).2 = none then (driver, none, fs)
  else
    let r := osMkdirAll fs dir
    (driver, r.2, r.1)

/-- The path resolver `stat`: the path itself, and when that does not exist the
path with `.json` appended. -/
def stat (fs : FS) (path : String) : Option Node × Option Error :=
  let r := osStat fs path
  if isNotExist r.2 then osStat fs (path ++ ".json") else r

/-- The method `getOrCreateMutex`: the lock and the driver with its registry. -/
def getOrCreateMutex (d : Driver) (collection : String) : Nat × Driver :=
  match lookupMutex d.mutexes collection with
  | some m => (m, d)
  | none =>
    let m := freshMutex d.mutexes
    (m, { d with mutexes := (collection, m) :: d.mutexes })

/-- The call `mutex.Lock()`. -/
def lock (m : Nat) (d : Driver) : Driver := { d with locked := m :: d.locked }

/-- The call `mutex.Unlock()`. -/
def unlock (m : Nat) (d : Driver) : Driver :=
  { d with locked := d.locked.filter (fun x => x ≠ m) }

/-- The collection directory of `Write`: `filepath.Join(d.dir, collection)`. -/
def collectionDir (d : Driver) (collection : String) : String :=
  join [d.dir, collection]

/-- The final path of `Write`: `filepath.Join(dir, resources+".json")`. -/
def finalPath (d : Driver) (collection resources : String) : String :=
  join [collectionDir d collection, resources ++ ".json"]

/-- The temporary path of `Write`: `fnlPath + ".tmp"`. -/
def tmpPath (d : Driver) (collection resources : String) : String :=
  finalPath d collection resources ++ ".tmp"

/-- The body of `Write` that runs with the collection lock held: the error and
the filesystem it leaves. An encoding error ends it with `nil`. -/
def writeLocked {V : Type} (codec : Codec V) (d : Driver) (fs : FS)
    (collection resources : String) (v : V) : Option Error × FS :=
  let dir := collectionDir d collection
  let fnlPath := finalPath d collection resources
  let tmpPath := tmpPath d collection resources
  match osMkdirAll fs dir with
  | (fs1, some err) => (some err, fs1)
  | (fs1, none) =>
    match codec.marshalIndent v "" "\t" with
    | none => (none, fs1)
    | some b =>
      let b := b ++ "\n"
      match ioutilWriteFile fs1 tmpPath b with
      | (fs2, some err) => (some err, fs2)
      | (fs2, none) =>
        let r := osRename fs2 tmpPath fnlPath
        (r.2, r.1)

/-- The method `Write`: the error, the driver and the filesystem afterwards.
The deferred `Unlock` runs on every path that took the lock. -/
def Write {V : Type} (codec : Codec V) (d : Driver) (fs : FS)
    (collection resources : String) (v : V) : Option Error × Driver × FS :=
  if collection = "" then
    (some (Error.errorf "missing collection- no place to save"), d, fs)
  else if resources = "" then
    (some (Error.errorf "missing resources- Ntg to save"), d, fs)
  else
    let g := getOrCreateMutex d collection
    let d2 := lock g.1 g.2
    let r := writeLocked codec d2 fs collection resources v
    (r.1, unlock g.1 d2, r.2)

/-- The method `Read`: the error and the decoded value; the target is left
alone (`none`) when an error is returned. -/
def Read {V : Type} (codec : Codec V) (d : Driver) (fs : FS)
    (collection resource : String) : Option Error × Option V :=
  if resource = "" then
    (some (Error.errorf "missing Resources- Ntg to read"), none)
  else if collection = "" then
    (some (Error.errorf "collection is empty- Ntg to read"), none)
  else
    let record := join [d.dir, collection, resource]
    match (stat fs record).2 with
    | some err => (some err, none)
    | none =>
      match ioutilReadFile fs (record ++ ".json") with
      | (_, some err) => (some err, none)
      | (b, none) =>
        match codec.unmarshal b with
        | none => (some Error.json, none)
        | some v => (none, some v)

/-- The loop of `ReadAll`: read every listed file, give up at the first error. -/
def readAllLoop (fs : FS) (dir : String) :
    List String → List String → List String × Option Error
  | [], records => (records, none)
  | file :: rest, records =>
    match ioutilReadFile fs (join [dir, file]) with
    | (_, some err) => ([], some err)
    | (b, none) => readAllLoop fs dir rest (records ++ [b])

/-- The method `ReadAll`, as `(records, err)`; the error of `ReadDir` is
dropped. -/
def ReadAll (d : Driver) (fs : FS) (collection : String) :
    List String × Option Error :=
  if collection = "" then
    ([], some (Error.errorf "collection is missing- unable to ReadAll"))
  else
    let dir := join [d.dir, collection]
    match (stat fs dir).2 with
    | some err => ([], some err)
    | none => readAllLoop fs dir (ioutilReadDir fs dir).1 []

/-- The path `Delete` resolves: `filepath.Join(d.dir, filepath.Join(collection,
resource))`. -/
def deletePath (d : Driver) (collection resource : String) : String :=
  join [d.dir, join [collection, resource]]

/-- The `switch` of `Delete`, run with the collection lock held. Every node of
the model is a directory or a regular file, so one of the three cases applies. -/
def deleteLocked (d : Driver) (fs : FS) (collection resource : String) :
    Option Error × FS :=
  let dir := deletePath d collection resource
  match stat fs dir with
  | (none, _) => (some (Error.errorf "unable to find file or directory"), fs)
  | (some _, some _) => (some (Error.errorf "unable to find file or directory"), fs)
  | (some Node.dir, none) =>
    let r := osRemoveAll fs dir
    (r.2, r.1)
  | (some (Node.file _), none) =>
    let r := osRemoveAll fs (dir ++ ".json")
    (r.2, r.1)

/-- The method `Delete`: the error, the driver and the filesystem afterwards. -/
def Delete (d : Driver) (fs : FS) (collection resource : String) :
    Option Error × Driver × FS :=
  let g := getOrCreateMutex d collection
  let d2 := lock g.1 g.2
  let r := deleteLocked d2 fs collection resource
  (r.1, unlock g.1 d2, r.2)

/-- The points at which a `Write` can be cut short: before its first step,
after the collection directory is made, while the temporary file holds some
written part, after the temporary file is complete, and after the rename. -/
inductive WritePoint
  | start
  | dirMade
  | tmpPartial (written : String)
  | tmpWritten
  | renamed

/-- The filesystem when the steps of `Write` have run up to the temporary file,
which holds `w`; a step that fails ends the sequence in the state it left. -/
def writeStateTmp {V : Type} (codec : Codec V) (d : Driver) (fs : FS)
    (collection resources : String) (v : V) (w : String) : FS :=
  match osMkdirAll fs (collectionDir d collection) with
  | (fs1, some _) => fs1
  | (fs1, none) =>
    match codec.marshalIndent v "" "\t" with
    | none => fs1
    | some _ => (ioutilWriteFile fs1 (tmpPath d collection resources) w).1

/-- The filesystem at a point of the step sequence of `Write`. -/
def writeStateAt {V : Type} (codec : Codec V) (d : Driver) (fs : FS)
    (collection resources : String) (v : V) : WritePoint → FS
  | WritePoint.start => fs
  | WritePoint.dirMade => (osMkdirAll fs (collectionDir d collection)).1
  | WritePoint.tmpPartial w => writeStateTmp codec d fs collection resources v w
  | WritePoint.tmpWritten =>
    writeStateTmp codec d fs collection resources v
      ((codec.marshalIndent v "" "\t").getD "" ++ "\n")
  | WritePoint.renamed => (writeLocked codec d fs collection resources v).2

/-- Run `Write` into one collection for every (resource, value) pair of the list,
in order; `none` when one of the calls returns an error. -/
def writeAll {V : Type} (codec : Codec V) (collection : String) :
    List (String × V) → Driver × FS → Option (Driver × FS)
  | [], s => some s
  | w :: rest, s =>
    match Write codec s.1 s.2 collection w.1 w.2 with
    | (none, s1) => writeAll codec collection rest s1
    | (some _, _) => none

/-- The text `Write` puts in the file of a value: the indented encoding and a
newline. -/
def stored {V : Type} (codec : Codec V) (v : V) : String :=
  (codec.marshalIndent v "" "\t").getD "" ++ "\n"

/-- The entry `Write` leaves for a (resource, value) pair whose resource name has
no slash, in the collection directory `collection`. -/
def storedEntry {V : Type} (codec : Codec V) (collection : String) (w : String × V) :
    String × Node :=
  (collection ++ "/" ++ (w.1 ++ ".json"), Node.file (stored codec w.2))

/-- Nothing exists at a path or beneath it: the path is not the working directory
or the root, which always exist, and no entry lies at it or beneath it. -/
def absentBefore (fs : FS) (p : String) : Prop :=
  p ≠ "." ∧ p ≠ "/" ∧ ∀ e ∈ fs, under p e.1 = false

instance (fs : FS) (p : String) : Decidable (absentBefore fs p) := by
  unfold absentBefore; infer_instance

/-- A call of `Write` or `Delete`, as the caller issues it. -/
inductive Call (V : Type)
  | write (collection resource : String) (v : V)
  | delete (collection resource : String)

/-- Run one call and keep the driver and the filesystem. -/
def runCall {V : Type} (codec : Codec V) (s : Driver × FS) : Call V → Driver × FS
  | Call.write c r v => (Write codec s.1 s.2 c r v).2
  | Call.delete c r => (Delete s.1 s.2 c r).2

/-- Run a list of calls in order. -/
def runCalls {V : Type} (codec : Codec V) (s : Driver × FS) (calls : List (Call V)) :
    Driver × FS :=
  calls.foldl (runCall codec) s

/-! ## Values for evaluating the driver -/

/-- Three Go values: two records and a channel, which `encoding/json` cannot
encode. -/
inductive Sample
  | john
  | alice
  | channel
  deriving DecidableEq, Repr

/-- The codec on the sample values. -/
def sampleCodec : Codec Sample where
  marshalIndent v _ _ :=
    match v with
    | Sample.john => some "\x7b\n\t\"Name\": \"John\"\n\x7d"
    | Sample.alice => some "\x7b\n\t\"Name\": \"Alice\"\n\x7d"
    | Sample.channel => none
  unmarshal b :=
    if b = "\x7b\n\t\"Name\": \"John\"\n\x7d\n" then some Sample.john
    else if b = "\x7b\n\t\"Name\": \"Alice\"\n\x7d\n" then some Sample.alice
    else none

/-! ## The path functions on the inputs used below -/

example : join ["", "Users"] = "Users" := by decide
example : join ["Users", "John.json"] = "Users/John.json" := by decide
example : join ["", "Users", "John"] = "Users/John" := by decide
example : join ["Users", ""] = "Users" := by decide
example : join ["c", "..json"] = "c/..json" := by decide
example : join ["", "c", "."] = "c" := by decide
example : join ["c", "./a.json"] = "c/a.json" := by decide
example : join ["", "", ""] = "" := by decide
example : clean "/data" = "/data" := by decide
example : clean "./" = "." := by decide

/-! ## Lemmas on paths -/

theorem splitSlash_noSlash (a : List Char) (h : '/' ∉ a) : splitSlash a = [a] := by
  induction a with
  | nil => rfl
  | cons c cs ih =>
    simp only [List.mem_cons, not_or] at h
    have hc : c ≠ '/' := fun e => h.1 e.symm
    simp [splitSlash, hc, ih h.2]

theorem splitSlash_append (a rest : List Char) (h : '/' ∉ a) :
    splitSlash (a ++ '/' :: rest) = a :: splitSlash rest := by
  induction a with
  | nil => simp [splitSlash]
  | cons c cs ih =>
    simp only [List.mem_cons, not_or] at h
    have hc : c ≠ '/' := fun e => h.1 e.symm
    simp [splitSlash, hc, ih h.2]

theorem splitSlash_joinSlash (cs : List (List Char)) (hne : cs ≠ [])
    (h : ∀ c ∈ cs, '/' ∉ c) : splitSlash (joinSlash cs) = cs := by
  induction cs with
  | nil => exact absurd rfl hne
  | cons c rest ih =>
    cases rest with
    | nil => simpa [joinSlash] using splitSlash_noSlash c (h c (by simp))
    | cons c2 rest2 =>
      have h1 : '/' ∉ c := h c (by simp)
      simp only [joinSlash]
      rw [splitSlash_append _ _ h1, ih (by simp) (fun x hx => h x (by simp [hx]))]

theorem cleanStep_kept (rooted : Bool) (out : List (List Char)) (c : List Char)
    (h : keptElem c) : cleanStep rooted out c = c :: out := by
  obtain ⟨h1, _, h3, h4⟩ := h
  simp [cleanStep, h1, h3, h4]

theorem foldl_cleanStep_kept (rooted : Bool) (cs out : List (List Char))
    (h : ∀ c ∈ cs, keptElem c) :
    cs.foldl (cleanStep rooted) out = cs.reverse ++ out := by
  induction cs generalizing out with
  | nil => rfl
  | cons c rest ih =>
    simp only [List.foldl_cons, List.reverse_cons, List.append_assoc]
    rw [cleanStep_kept rooted out c (h c (by simp)), ih _ (fun x hx => h x (by simp [hx]))]
    simp

theorem joinSlash_ne_nil (c : List Char) (rest : List (List Char)) (h : c ≠ []) :
    joinSlash (c :: rest) ≠ [] := by
  cases rest with
  | nil => simpa [joinSlash] using h
  | cons c2 r2 => simp [joinSlash]

theorem joinSlash_head (c : List Char) (rest : List (List Char)) (h : c ≠ []) :
    (joinSlash (c :: rest)).head? = c.head? := by
  cases rest with
  | nil => simp [joinSlash]
  | cons c2 r2 =>
    cases c with
    | nil => exact absurd rfl h
    | cons a as => simp [joinSlash]

theorem keptElem_json (r : String) (h : '/' ∉ r.data) : keptElem (r ++ ".json").data := by
  have hd : (r ++ ".json").data = r.data ++ ['.', 'j', 's', 'o', 'n'] := by
    rw [String.data_append]
  rw [hd]
  refine ⟨by simp, ?_, ?_, ?_⟩
  · simp only [List.mem_append, not_or]
    exact ⟨h, by decide⟩
  · intro e
    have := congrArg List.length e
    simp at this
  · intro e
    have := congrArg List.length e
    simp at this

theorem parentDir_child (c x : String) (hc : c.data ≠ []) (hx : '/' ∉ x.data) :
    parentDir (c ++ "/" ++ x) = c := by
  have hd : (c ++ "/" ++ x).data.reverse = x.data.reverse ++ '/' :: c.data.reverse := by
    simp [String.data_append]
  have hdrop : (x.data.reverse ++ '/' :: c.data.reverse).dropWhile (fun ch => ch ≠ '/') =
      '/' :: c.data.reverse := by
    rw [List.dropWhile_append_of_pos]
    · simp [List.dropWhile]
    · intro a ha
      have ha1 : a ∈ x.data := List.mem_reverse.mp ha
      have : a ≠ '/' := fun e => hx (e ▸ ha1)
      simpa using this
  simp only [parentDir, hd, hdrop]
  have : c.data.reverse ≠ [] := by simpa using hc
  simp [this]

theorem prefixesAux_length (acc cs : List Char) :
    ∀ x ∈ prefixesAux acc cs, x.length ≤ acc.length + cs.length := by
  induction cs generalizing acc with
  | nil => intro x hx; simp [prefixesAux] at hx; simp [hx]

  | cons c rest ih =>
    intro x hx
    simp only [prefixesAux] at hx
    split at hx
    · simp only [List.mem_cons] at hx
      rcases hx with e | hx
      · subst e; simp
      · have := ih _ x hx
        simp at this ⊢; omega
    · have := ih _ x hx
      simp at this ⊢; omega

theorem selfAndAncestors_length (p q : String) (h : q ∈ selfAndAncestors p) :
    q.data.length ≤ p.data.length := by
  simp only [selfAndAncestors, List.mem_reverse, List.mem_map] at h
  obtain ⟨x, hx, rfl⟩ := h
  simpa using prefixesAux_length [] p.data x hx

theorem cleanChars_eq (p : List Char) (hp : p ≠ []) :
    cleanChars p = render (rootedChars p) (stackOf p) := by
  unfold cleanChars render stackOf rootedChars
  simp only [hp, if_false]
  by_cases h : p.head? = some '/' <;> simp [h]

theorem splitSlash_ne_nil (p : List Char) : splitSlash p ≠ [] := by
  induction p with
  | nil => simp [splitSlash]
  | cons c cs ih =>
    unfold splitSlash
    split
    · simp
    · split
      · simp
      · simp

theorem splitSlash_cons_slash (p q : List Char) :
    splitSlash (p ++ '/' :: q) = splitSlash p ++ splitSlash q := by
  induction p with
  | nil => simp [splitSlash]
  | cons c cs ih =>
    by_cases hc : c = '/'
    · simp [splitSlash, hc, ih]
    · cases h : splitSlash cs with
      | nil => exact absurd h (splitSlash_ne_nil cs)
      | cons a t =>
        rw [h] at ih
        simp [splitSlash, hc, ih, h]

theorem splitSlash_mem_noSlash (p : List Char) : ∀ x ∈ splitSlash p, '/' ∉ x := by
  induction p with
  | nil => intro x hx; simp [splitSlash] at hx; simp [hx]
  | cons c cs ih =>
    intro x hx
    by_cases hc : c = '/'
    · simp only [splitSlash, hc, if_true, List.mem_cons] at hx
      rcases hx with h | h
      · simp [h]
      · exact ih x h
    · simp only [splitSlash, hc, if_false] at hx
      cases h : splitSlash cs with
      | nil => exact absurd h (splitSlash_ne_nil cs)
      | cons a t =>
        rw [h] at hx ih
        simp only [List.mem_cons] at hx
        rcases hx with e | e
        · subst e
          have ha := ih a (by simp)
          simp only [List.mem_cons, not_or]
          exact ⟨fun e => hc e.symm, ha⟩
        · exact ih x (by simp [e])

theorem rootedChars_append (p q : List Char) (hp : p ≠ []) :
    rootedChars (p ++ q) = rootedChars p := by
  cases p with
  | nil => exact absurd rfl hp
  | cons a t => simp [rootedChars]

theorem stackOf_append (p q : List Char) (hp : p ≠ []) :
    stackOf (p ++ '/' :: q) =
      (splitSlash q).foldl (cleanStep (rootedChars p)) (stackOf p) := by
  unfold stackOf
  rw [rootedChars_append p _ hp, splitSlash_cons_slash, List.foldl_append]

theorem cleanStep_dots (m : Nat) :
    cleanStep false (List.replicate m ['.', '.']) ['.', '.'] =
      List.replicate (m + 1) ['.', '.'] := by
  cases m with
  | zero => simp [cleanStep]
  | succ k => simp [cleanStep, List.replicate_succ]

theorem foldl_dots (n m : Nat) :
    (List.replicate n ['.', '.']).foldl (cleanStep false) (List.replicate m ['.', '.']) =
      List.replicate (n + m) ['.', '.'] := by
  induction n generalizing m with
  | zero => simp
  | succ k ih =>
    rw [List.replicate_succ, List.foldl_cons, cleanStep_dots, ih]
    congr 1
    omega

theorem validStack_step (rt : Bool) (out : List (List Char)) (comp : List Char)
    (h : ValidStack rt out) (hc : '/' ∉ comp) : ValidStack rt (cleanStep rt out comp) := by
  obtain ⟨K, n, rfl, hK, hn⟩ := h
  unfold cleanStep
  by_cases h1 : comp = [] ∨ comp = ['.']
  · rw [if_pos h1]; exact ⟨K, n, rfl, hK, hn⟩
  · rw [if_neg h1]
    by_cases h2 : comp = ['.', '.']
    · rw [if_pos h2]
      cases K with
      | nil =>
        cases n with
        | zero =>
          cases rt with
          | true => exact ⟨[], 0, by simp, by simp, fun _ => rfl⟩
          | false => exact ⟨[], 1, by simp [h2], by simp, by simp⟩
        | succ k =>
          have hrt : rt = false := by
            cases rt with
            | true => exact absurd (hn rfl) (by simp)
            | false => rfl
          refine ⟨[], k + 2, ?_, by simp, by simp [hrt]⟩
          simp [List.replicate_succ, h2]
      | cons k K1 =>
        have hk := hK k (by simp)
        have hne : k ≠ ['.', '.'] := hk.2.2.2
        exact ⟨K1, n, by simp [hne], fun x hx => hK x (by simp [hx]), hn⟩
    · rw [if_neg h2]
      have hkept : keptElem comp := by
        simp only [not_or] at h1
        exact ⟨h1.1, hc, h1.2, h2⟩
      refine ⟨comp :: K, n, by simp, ?_, hn⟩
      intro x hx
      simp only [List.mem_cons] at hx
      rcases hx with e | e
      · subst e; exact hkept
      · exact hK x e

theorem validStack_foldl (rt : Bool) (comps out : List (List Char))
    (h : ValidStack rt out) (hc : ∀ x ∈ comps, '/' ∉ x) :
    ValidStack rt (comps.foldl (cleanStep rt) out) := by
  induction comps generalizing out with
  | nil => exact h
  | cons c rest ih =>
    simp only [List.foldl_cons]
    exact ih _ (validStack_step rt out c h (hc c (by simp)))
      (fun x hx => hc x (by simp [hx]))

theorem validStack_stackOf (p : List Char) : ValidStack (rootedChars p) (stackOf p) :=
  validStack_foldl _ _ [] ⟨[], 0, by simp, by simp, fun _ => rfl⟩ (splitSlash_mem_noSlash p)

theorem foldl_reverse_valid (rt : Bool) (out : List (List Char)) (h : ValidStack rt out) :
    out.reverse.foldl (cleanStep rt) [] = out := by
  obtain ⟨K, n, rfl, hK, hn⟩ := h
  rw [List.reverse_append, List.reverse_replicate, List.foldl_append]
  have hdots : (List.replicate n ['.', '.']).foldl (cleanStep rt) [] =
      List.replicate n ['.', '.'] := by
    cases rt with
    | true => rw [hn rfl]; rfl
    | false => simpa using foldl_dots n 0
  rw [hdots, foldl_cleanStep_kept rt K.reverse _
    (fun x hx => hK x (List.mem_reverse.mp hx))]
  simp

theorem validStack_elem (rt : Bool) (out : List (List Char)) (h : ValidStack rt out) :
    ∀ x ∈ out, x ≠ [] ∧ '/' ∉ x := by
  obtain ⟨K, n, rfl, hK, _⟩ := h
  intro x hx
  simp only [List.mem_append, List.mem_replicate] at hx
  rcases hx with hx | ⟨_, rfl⟩
  · exact ⟨(hK x hx).1, (hK x hx).2.1⟩
  · exact ⟨by simp, by decide⟩

theorem joinSlash_reverse_facts (rt : Bool) (out : List (List Char))
    (h : ValidStack rt out) (hne : out ≠ []) :
    joinSlash out.reverse ≠ [] ∧ (joinSlash out.reverse).head? ≠ some '/' ∧
      splitSlash (joinSlash out.reverse) = out.reverse := by
  have helem := validStack_elem rt out h
  have hrev : out.reverse ≠ [] := by simpa using hne
  cases hr : out.reverse with
  | nil => exact absurd hr hrev
  | cons a t =>
    have ha : a ∈ out := List.mem_reverse.mp (by rw [hr]; simp)
    have ha1 := helem a ha
    refine ⟨joinSlash_ne_nil a t ha1.1, ?_, ?_⟩
    · rw [joinSlash_head a t ha1.1]
      cases a with
      | nil => exact absurd rfl ha1.1
      | cons c cs =>
        simp only [List.head?_cons, ne_eq, Option.some.injEq]
        intro e
        exact ha1.2 (by simp [e])
    · rw [← hr]
      exact splitSlash_joinSlash _ hrev
        (fun x hx => (helem x (List.mem_reverse.mp hx)).2)

theorem render_ne_nil (rt : Bool) (out : List (List Char)) : render rt out ≠ [] := by
  unfold render
  by_cases h : (if rt then '/' :: joinSlash out.reverse else joinSlash out.reverse) = []
  · rw [if_pos h]; simp
  · rw [if_neg h]; exact h

theorem render_facts (rt : Bool) (out : List (List Char)) (h : ValidStack rt out) :
    rootedChars (render rt out) = rt ∧ stackOf (render rt out) = out := by
  by_cases hne : out = []
  · subst hne
    cases rt <;> exact ⟨by decide, by decide⟩
  · obtain ⟨h1, h2, h3⟩ := joinSlash_reverse_facts rt out h hne
    cases rt with
    | true =>
      have hr : render true out = '/' :: joinSlash out.reverse := by simp [render]
      rw [hr]
      refine ⟨by simp [rootedChars], ?_⟩
      have hroot : rootedChars ('/' :: joinSlash out.reverse) = true := by
        simp [rootedChars]
      unfold stackOf
      rw [hroot]
      simp only [splitSlash, if_true, h3, List.foldl_cons]
      have : cleanStep true [] [] = [] := by simp [cleanStep]
      rw [this]
      exact foldl_reverse_valid true out h
    | false =>
      have hr : render false out = joinSlash out.reverse := by simp [render, h1]
      rw [hr]
      have hroot : rootedChars (joinSlash out.reverse) = false := by
        simp [rootedChars, h2]
      refine ⟨hroot, ?_⟩
      unfold stackOf
      rw [hroot, h3]
      exact foldl_reverse_valid false out h

theorem cleanChars_ne_nil (p : List Char) : cleanChars p ≠ [] := by
  by_cases hp : p = []
  · subst hp; decide
  · rw [cleanChars_eq p hp]; exact render_ne_nil _ _

theorem cleanChars_cleaned_head (p y : List Char) (hp : p ≠ []) :
    cleanChars (cleanChars p ++ '/' :: y) = cleanChars (p ++ '/' :: y) := by
  have hq := cleanChars_ne_nil p
  have hf := render_facts (rootedChars p) (stackOf p) (validStack_stackOf p)
  rw [← cleanChars_eq p hp] at hf
  rw [cleanChars_eq _ (by simp), cleanChars_eq (p ++ '/' :: y) (by simp),
    rootedChars_append _ _ hq, rootedChars_append _ _ hp, stackOf_append _ _ hq,
    stackOf_append _ _ hp, hf.1, hf.2]

theorem splitSlash_append_noSlash (r j init : List Char) (I : List (List Char))
    (hj : '/' ∉ j) (hs : splitSlash r = I ++ [init]) :
    splitSlash (r ++ j) = I ++ [init ++ j] := by
  induction r generalizing I init with
  | nil =>
    simp only [splitSlash] at hs
    cases I with
    | nil =>
      simp only [List.nil_append, List.cons.injEq, and_true] at hs
      subst hs
      simpa using splitSlash_noSlash j hj
    | cons a t =>
      have := congrArg List.length hs
      simp at this
  | cons c cs ih =>
    by_cases hc : c = '/'
    · simp only [splitSlash, hc, if_true] at hs
      cases I with
      | nil =>
        simp only [List.nil_append, List.cons.injEq] at hs
        exact absurd hs.2 (splitSlash_ne_nil cs)
      | cons a t =>
        simp only [List.cons_append, List.cons.injEq] at hs
        simp [splitSlash, hc, ih init t hs.2, hs.1]
    · cases h : splitSlash cs with
      | nil => exact absurd h (splitSlash_ne_nil cs)
      | cons a t =>
        simp only [splitSlash, hc, if_false, h] at hs
        cases I with
        | nil =>
          simp only [List.nil_append, List.cons.injEq] at hs
          have h1 : splitSlash cs = [] ++ [a] := by rw [h, hs.2]; rfl
          have := ih a [] h1
          simp only [List.nil_append] at this
          simp [splitSlash, hc, this, ← hs.1]
        | cons b I1 =>
          simp only [List.cons_append, List.cons.injEq] at hs
          have h1 : splitSlash cs = (a :: I1) ++ [init] := by rw [h, hs.2]; rfl
          have := ih init (a :: I1) h1
          simp only [List.cons_append] at this
          simp [splitSlash, hc, this, ← hs.1]

theorem splitSlash_lastElem (r : String) :
    splitSlash r.data = (splitSlash r.data).dropLast ++ [lastElem r] := by
  unfold lastElem
  have hne := splitSlash_ne_nil r.data
  rw [List.getLastD_eq_getLast?, List.getLast?_eq_getLast _ hne]
  exact (List.dropLast_append_getLast hne).symm

theorem keptElem_append (x j : List Char) (hx : keptElem x) (hj : '/' ∉ j)
    (hlen : 2 ≤ j.length) : keptElem (x ++ j) := by
  obtain ⟨h1, h2, _, _⟩ := hx
  have hxl : 0 < x.length := List.length_pos.mpr h1
  refine ⟨by simp [h1], ?_, ?_, ?_⟩
  · simp only [List.mem_append, not_or]; exact ⟨h2, hj⟩
  · intro e
    have := congrArg List.length e
    simp at this
    omega
  · intro e
    have := congrArg List.length e
    simp at this
    omega

theorem joinSlash_snoc (L : List (List Char)) (x : List Char) (hL : L ≠ []) :
    joinSlash (L ++ [x]) = joinSlash L ++ '/' :: x := by
  induction L with
  | nil => exact absurd rfl hL
  | cons a t ih =>
    cases t with
    | nil => simp [joinSlash]
    | cons b t1 =>
      have := ih (by simp)
      simp only [List.cons_append] at this ⊢
      simp [joinSlash, this]

theorem joinSlash_append_last (L : List (List Char)) (x j : List Char) :
    joinSlash (L ++ [x ++ j]) = joinSlash (L ++ [x]) ++ j := by
  by_cases hL : L = []
  · subst hL; simp [joinSlash]
  · rw [joinSlash_snoc L _ hL, joinSlash_snoc L _ hL]; simp

theorem joinSlash_snoc_ne_nil (L : List (List Char)) (x : List Char) (hx : x ≠ []) :
    joinSlash (L ++ [x]) ≠ [] := by
  by_cases hL : L = []
  · subst hL; simpa [joinSlash] using hx
  · rw [joinSlash_snoc L _ hL]; simp

theorem render_push_append (rt : Bool) (out : List (List Char)) (x j : List Char)
    (hx : x ≠ []) : render rt ((x ++ j) :: out) = render rt (x :: out) ++ j := by
  have h1 := joinSlash_snoc_ne_nil out.reverse x hx
  have h2 := joinSlash_snoc_ne_nil out.reverse (x ++ j) (by simp [hx])
  unfold render
  simp only [List.reverse_cons]
  cases rt with
  | true => simp [joinSlash_append_last]
  | false => simp [h1, h2, joinSlash_append_last]

theorem render_push (rt : Bool) (out : List (List Char)) (x : List Char)
    (hx : x ≠ []) (hdot : render rt out ≠ ['.']) (hroot : render rt out ≠ ['/']) :
    render rt (x :: out) = render rt out ++ '/' :: x := by
  have hne : out ≠ [] := by
    intro e
    subst e
    cases rt
    · exact hdot (by decide)
    · exact hroot (by decide)
  have hrev : out.reverse ≠ [] := by simpa using hne
  have h1 := joinSlash_snoc_ne_nil out.reverse x hx
  unfold render at hdot hroot ⊢
  simp only [List.reverse_cons, joinSlash_snoc _ _ hrev] at h1 ⊢
  cases rt with
  | true => simp
  | false =>
    by_cases hb : joinSlash out.reverse = []
    · simp [hb] at hdot
    · simp [hb]

theorem cleanChars_last_json (p : List Char) (r : String) (hp : p ≠ [])
    (hr : keptElem (lastElem r)) :
    cleanChars (p ++ '/' :: (r ++ ".json").data) =
      cleanChars (p ++ '/' :: r.data) ++ ".json".data := by
  have hs := splitSlash_lastElem r
  have hj : '/' ∉ ".json".data := by decide
  have hs2 := splitSlash_append_noSlash r.data ".json".data (lastElem r) _ hj hs
  have hk2 := keptElem_append (lastElem r) ".json".data hr hj (by decide)
  rw [cleanChars_eq _ (by simp), cleanChars_eq (p ++ '/' :: r.data) (by simp),
    rootedChars_append _ _ hp, rootedChars_append _ _ hp, stackOf_append _ _ hp,
    stackOf_append _ _ hp, String.data_append, hs2]
  conv => rhs; rw [hs]
  rw [List.foldl_append, List.foldl_append]
  simp only [List.foldl_cons, List.foldl_nil]
  rw [cleanStep_kept _ _ _ hk2, cleanStep_kept _ _ _ hr]
  exact render_push_append _ _ _ _ hr.1

theorem cleanChars_child (p x : List Char) (hp : p ≠ []) (hx : keptElem x)
    (hdot : cleanChars p ≠ ['.']) (hroot : cleanChars p ≠ ['/']) :
    cleanChars (cleanChars p ++ '/' :: x) = cleanChars p ++ '/' :: x := by
  rw [cleanChars_cleaned_head p x hp, cleanChars_eq _ (by simp), rootedChars_append _ _ hp,
    stackOf_append _ _ hp, splitSlash_noSlash x hx.2.1]
  simp only [List.foldl_cons, List.foldl_nil]
  rw [cleanStep_kept _ _ _ hx]
  rw [cleanChars_eq p hp] at hdot hroot ⊢
  exact render_push _ _ _ hx.1 hdot hroot

theorem data_ne_nil (c : String) (h : c ≠ "") : c.data ≠ [] := by
  intro e
  exact h (String.ext e)

theorem joinedChars_ne_nil (a c : String) (hc : c ≠ "") : joinedChars a c ≠ [] := by
  unfold joinedChars
  split
  · exact data_ne_nil c hc
  · simp

theorem join_two (a c : String) (hc : c ≠ "") :
    join [a, c] = ⟨cleanChars (joinedChars a c)⟩ := by
  have hcd := data_ne_nil c hc
  by_cases ha : a.data = []
  · simp [join, List.dropWhile, ha, hcd, joinSlash, joinedChars]
  · simp [join, List.dropWhile, ha, joinSlash, joinedChars]

theorem join_three (a c r : String) (hc : c ≠ "") :
    join [a, c, r] = ⟨cleanChars (joinedChars a c ++ '/' :: r.data)⟩ := by
  have hcd := data_ne_nil c hc
  by_cases ha : a.data = []
  · simp [join, List.dropWhile, ha, hcd, joinSlash, joinedChars]
  · simp [join, List.dropWhile, ha, joinSlash, joinedChars]

theorem join_onto (x y : String) (hx : x.data ≠ []) :
    join [x, y] = ⟨cleanChars (x.data ++ '/' :: y.data)⟩ := by
  simp [join, List.dropWhile, hx, joinSlash]

theorem join_join_json (a c r : String) (hc : c ≠ "") (hr : keptElem (lastElem r)) :
    join [join [a, c], r ++ ".json"] = join [a, c, r] ++ ".json" := by
  have hp := joinedChars_ne_nil a c hc
  rw [join_two a c hc, join_onto ⟨cleanChars (joinedChars a c)⟩ (r ++ ".json")
    (cleanChars_ne_nil _), join_three a c r hc]
  apply String.ext
  simp only [String.data_append]
  rw [cleanChars_cleaned_head _ _ hp]
  exact cleanChars_last_json _ r hp hr

theorem join_join_child (a c x : String) (hc : c ≠ "") (hx : keptElem x.data)
    (hdot : join [a, c] ≠ ".") (hroot : join [a, c] ≠ "/") :
    join [join [a, c], x] = join [a, c] ++ "/" ++ x := by
  have hp := joinedChars_ne_nil a c hc
  rw [join_two a c hc] at hdot hroot ⊢
  rw [join_onto ⟨cleanChars (joinedChars a c)⟩ x (cleanChars_ne_nil _)]
  apply String.ext
  simp only [String.data_append]
  have h1 : cleanChars (joinedChars a c) ≠ ['.'] := fun e => hdot (String.ext e)
  have h2 : cleanChars (joinedChars a c) ≠ ['/'] := fun e => hroot (String.ext e)
  rw [cleanChars_child _ _ hp hx h1 h2]
  simp

/-! ## Lemmas on the filesystem -/

theorem lookup_filter_key (f : String → Bool) (fs : FS) (q : String) :
    lookup (fs.filter (fun e => f e.1)) q = if f q = true then lookup fs q else none := by
  induction fs with
  | nil => simp [lookup]
  | cons e rest ih =>
    obtain ⟨k, n⟩ := e
    by_cases hk : f k = true
    · by_cases hq : k = q
      · subst hq; simp [List.filter_cons, hk, lookup]
      · simp [List.filter_cons, hk, lookup, hq, ih]
    · by_cases hq : k = q
      · subst hq; simp [List.filter_cons, hk, lookup, ih]
      · simp [List.filter_cons, hk, lookup, hq, ih]

theorem lookup_osRemoveAll (fs : FS) (p q : String) :
    lookup (osRemoveAll fs p).1 q = if under p q = true then none else lookup fs q := by
  have h := lookup_filter_key (fun k => !under p k) fs q
  simp only [osRemoveAll]
  rw [h]
  cases under p q <;> simp

theorem lookup_osMkdir (fs : FS) (p q : String) (h : q ≠ p) :
    lookup (osMkdir fs p).1 q = lookup fs q := by
  unfold osMkdir
  split
  · rfl
  · split
    · rfl
    · split
      · have hne : p ≠ q := fun e => h e.symm
        simp [lookup, hne]
      · rfl

theorem lookup_ioutilWriteFile_other (fs : FS) (f b q : String) (h : q ≠ f) :
    lookup (ioutilWriteFile fs f b).1 q = lookup fs q := by
  unfold ioutilWriteFile
  split
  · rfl
  · split
    · rfl
    · split
      · have := lookup_filter_key (fun k => decide (k ≠ f)) fs q
        have hne : f ≠ q := fun e => h e.symm
        simp only [lookup, hne, if_false]
        simpa [h] using this
      · rfl

theorem lookup_ioutilWriteFile_ok (fs : FS) (f b : String)
    (h : (ioutilWriteFile fs f b).2 = none) :
    lookup (ioutilWriteFile fs f b).1 f = some (Node.file b) := by
  unfold ioutilWriteFile at h ⊢
  split at h
  · cases h
  · split at h
    · cases h
    · split at h
      · next h1 h2 h3 => simp [h1, h2, h3, lookup]
      · cases h

theorem lookup_osRename_new (fs : FS) (old new : String) (c : String)
    (h : lookup fs old = some (Node.file c)) :
    lookup (osRename fs old new).1 new = lookup fs new ∨
      lookup (osRename fs old new).1 new = some (Node.file c) := by
  unfold osRename
  rw [h]
  simp only
  split
  · exact Or.inl rfl
  · split
    · exact Or.inr (by simp [lookup])
    · exact Or.inl rfl

theorem lookup_osRename_ok (fs : FS) (old new : String) (c : String)
    (h : lookup fs old = some (Node.file c)) (hok : (osRename fs old new).2 = none) :
    lookup (osRename fs old new).1 new = some (Node.file c) := by
  unfold osRename at hok ⊢
  rw [h] at hok ⊢
  simp only at hok ⊢
  split at hok
  · cases hok
  · split at hok
    · next h1 h2 => simp [h1, h2, lookup]
    · cases hok

theorem append_tmp_ne (s : String) : s ++ ".tmp" ≠ s := by
  intro e
  have := congrArg (fun x => x.data.length) e
  simp [String.data_append] at this

theorem getOrCreateMutex_dir (d : Driver) (c : String) :
    (getOrCreateMutex d c).2.dir = d.dir := by
  unfold getOrCreateMutex
  cases lookupMutex d.mutexes c <;> rfl

theorem New_dir_empty (root : String) (fs : FS) : (New root fs).1.dir = "" := by
  unfold New
  simp only
  split <;> rfl

theorem Delete_dir (d : Driver) (fs : FS) (c r : String) :
    (Delete d fs c r).2.1.dir = d.dir := by
  show (getOrCreateMutex d c).2.dir = d.dir
  exact getOrCreateMutex_dir d c

theorem writeLocked_congr {V : Type} (codec : Codec V) (d d1 : Driver) (fs : FS)
    (c r : String) (v : V) (h : d1.dir = d.dir) :
    writeLocked codec d1 fs c r v = writeLocked codec d fs c r v := by
  simp [writeLocked, collectionDir, finalPath, tmpPath, h]

theorem Write_fs {V : Type} (codec : Codec V) (d : Driver) (fs : FS)
    (c r : String) (v : V) (hc : c ≠ "") (hr : r ≠ "") :
    ((Write codec d fs c r v).1, (Write codec d fs c r v).2.2) =
      writeLocked codec d fs c r v := by
  have := writeLocked_congr codec d (lock (getOrCreateMutex d c).1 (getOrCreateMutex d c).2)
    fs c r v (by show (getOrCreateMutex d c).2.dir = d.dir; exact getOrCreateMutex_dir d c)
  simp [Write, hc, hr, this]

/-! ## The lock registry -/

theorem freshMutex_gt (reg : List (String × Nat)) (k : String) (m : Nat)
    (h : lookupMutex reg k = some m) : m < freshMutex reg := by
  induction reg with
  | nil => simp [lookupMutex] at h
  | cons e rest ih =>
    obtain ⟨k1, m1⟩ := e
    simp only [lookupMutex] at h
    simp only [freshMutex, List.map_cons, List.foldr_cons]
    by_cases hk : k1 = k
    · simp only [hk, if_true, Option.some.injEq] at h
      omega
    · simp only [hk, if_false] at h
      have := ih h
      simp only [freshMutex] at this
      omega

theorem getOrCreateMutex_registers (d : Driver) (c : String) :
    lookupMutex (getOrCreateMutex d c).2.mutexes c = some (getOrCreateMutex d c).1 := by
  unfold getOrCreateMutex
  cases h : lookupMutex d.mutexes c with
  | none => simp [lookupMutex]
  | some m => simpa using h

theorem getOrCreateMutex_keeps (d : Driver) (c k : String) (m : Nat)
    (h : lookupMutex d.mutexes k = some m) :
    lookupMutex (getOrCreateMutex d c).2.mutexes k = some m := by
  unfold getOrCreateMutex
  cases hc : lookupMutex d.mutexes c with
  | some m1 => simpa using h
  | none =>
    have hne : c ≠ k := by
      intro e; subst e; rw [hc] at h; cases h
    simp [lookupMutex, hne, h]

theorem Write_driver {V : Type} (codec : Codec V) (d : Driver) (fs : FS)
    (c r : String) (v : V) :
    (Write codec d fs c r v).2.1 =
      if c = "" ∨ r = "" then d
      else unlock (getOrCreateMutex d c).1 (lock (getOrCreateMutex d c).1 (getOrCreateMutex d c).2) := by
  unfold Write
  by_cases hc : c = ""
  · simp [hc]
  · by_cases hr : r = ""
    · simp [hc, hr]
    · simp [hc, hr]

theorem Delete_driver (d : Driver) (fs : FS) (c r : String) :
    (Delete d fs c r).2.1 =
      unlock (getOrCreateMutex d c).1 (lock (getOrCreateMutex d c).1 (getOrCreateMutex d c).2) := by
  simp [Delete]

theorem unlock_lock_mutexes (m : Nat) (d : Driver) :
    (unlock m (lock m d)).mutexes = d.mutexes := rfl

theorem unlock_lock_dir (m : Nat) (d : Driver) :
    (unlock m (lock m d)).dir = d.dir := rfl

theorem not_mem_unlock (m : Nat) (d : Driver) : m ∉ (unlock m d).locked := by
  simp [unlock]

theorem runCall_keeps {V : Type} (codec : Codec V) (s : Driver × FS) (call : Call V)
    (k : String) (m : Nat) (h : lookupMutex s.1.mutexes k = some m) :
    lookupMutex (runCall codec s call).1.mutexes k = some m := by
  cases call with
  | write c r v =>
    simp only [runCall, Write_driver]
    split
    · exact h
    · rw [unlock_lock_mutexes]; exact getOrCreateMutex_keeps _ _ _ _ h
  | delete c r =>
    simp only [runCall, Delete_driver]
    rw [unlock_lock_mutexes]; exact getOrCreateMutex_keeps _ _ _ _ h

theorem runCalls_keeps {V : Type} (codec : Codec V) (calls : List (Call V))
    (s : Driver × FS) (k : String) (m : Nat) (h : lookupMutex s.1.mutexes k = some m) :
    lookupMutex (runCalls codec s calls).1.mutexes k = some m := by
  induction calls generalizing s with
  | nil => exact h
  | cons call rest ih =>
    simp only [runCalls, List.foldl_cons]
    exact ih _ (runCall_keeps codec s call k m h)

theorem getOrCreateMutex_of_registered (d : Driver) (c : String) (m : Nat)
    (h : lookupMutex d.mutexes c = some m) : getOrCreateMutex d c = (m, d) := by
  unfold getOrCreateMutex
  rw [h]

/-! ## Claims -/

/-- C10. The lock registry is lookup-or-create and only grows: `getOrCreateMutex`
returns the lock registered under the name when there is one, and otherwise
registers a lock that differs from every registered one and returns it; every
name registered before keeps its lock. After a `Write` or a `Delete` on a
collection, whatever calls follow, the registry hands out the same lock for that
collection; and `Write` and `Delete` return with that lock not held, while a
`Write` that stops at an empty name leaves the driver as it was. -/
theorem lock_registry_grows {V : Type} (codec : Codec V) (d : Driver) (fs : FS)
    (c : String) :
    (∀ m, lookupMutex d.mutexes c = some m → getOrCreateMutex d c = (m, d)) ∧
    (lookupMutex d.mutexes c = none →
      (getOrCreateMutex d c).2.mutexes = (c, (getOrCreateMutex d c).1) :: d.mutexes ∧
      ∀ k m, lookupMutex d.mutexes k = some m → m ≠ (getOrCreateMutex d c).1) ∧
    lookupMutex (getOrCreateMutex d c).2.mutexes c = some (getOrCreateMutex d c).1 ∧
    (∀ k m, lookupMutex d.mutexes k = some m →
      lookupMutex (getOrCreateMutex d c).2.mutexes k = some m) ∧
    (∀ r v calls, c ≠ "" → r ≠ "" →
      (getOrCreateMutex (runCalls codec (Write codec d fs c r v).2 calls).1 c).1 =
        (getOrCreateMutex d c).1) ∧
    (∀ r calls,
      (getOrCreateMutex (runCalls codec (Delete d fs c r).2 calls).1 c).1 =
        (getOrCreateMutex d c).1) ∧
    (∀ r v, c ≠ "" → r ≠ "" →
      (getOrCreateMutex d c).1 ∉ (Write codec d fs c r v).2.1.locked) ∧
    (∀ r v, c = "" ∨ r = "" → (Write codec d fs c r v).2.1 = d) ∧
    (∀ r, (getOrCreateMutex d c).1 ∉ (Delete d fs c r).2.1.locked) := by
  refine ⟨fun m h => getOrCreateMutex_of_registered d c m h, ?_,
    getOrCreateMutex_registers d c, fun k m h => getOrCreateMutex_keeps d c k m h,
    ?_, ?_, ?_, ?_, ?_⟩
  · intro h
    constructor
    · unfold getOrCreateMutex; rw [h]
    · intro k m hk
      have hlt := freshMutex_gt d.mutexes k m hk
      have : (getOrCreateMutex d c).1 = freshMutex d.mutexes := by
        unfold getOrCreateMutex; rw [h]
      omega
  · intro r v calls hc hr
    have h0 : lookupMutex (Write codec d fs c r v).2.1.mutexes c =
        some (getOrCreateMutex d c).1 := by
      rw [Write_driver]
      simp only [hc, hr, or_self, if_false, unlock_lock_mutexes]
      exact getOrCreateMutex_registers d c
    have h1 := runCalls_keeps codec calls (Write codec d fs c r v).2 c _ h0
    rw [getOrCreateMutex_of_registered _ c _ h1]
  · intro r calls
    have h0 : lookupMutex (Delete d fs c r).2.1.mutexes c =
        some (getOrCreateMutex d c).1 := by
      rw [Delete_driver, unlock_lock_mutexes]
      exact getOrCreateMutex_registers d c
    have h1 := runCalls_keeps codec calls (Delete d fs c r).2 c _ h0
    rw [getOrCreateMutex_of_registered _ c _ h1]
  · intro r v hc hr
    rw [Write_driver]
    simp only [hc, hr, or_self, if_false]
    exact not_mem_unlock _ _
  · intro r v h
    rw [Write_driver]
    simp [h]
  · intro r
    rw [Delete_driver]
    exact not_mem_unlock _ _

/-- C10, at the registry that holds `Users`: the registered lock comes back and
the driver is unchanged. -/
theorem lock_registry_grows_witness :
    getOrCreateMutex { mutexes := [("Users", 1)], dir := "", locked := [] } "Users" =
      (1, { mutexes := [("Users", 1)], dir := "", locked := [] }) :=
  (lock_registry_grows sampleCodec { mutexes := [("Users", 1)], dir := "", locked := [] }
    [] "Users").1 1 (by decide)

/-- C2. `New` leaves the `dir` field of the driver empty, so a `Write` through
the driver made for the root `/data` puts the record at `Users/John.json`,
relative to the working directory, and nothing at `/data/Users/John.json`. The
content is the indented encoding followed by one newline. -/
theorem write_ignores_root :
    (∀ root fs, (New root fs).1.dir = "") ∧
    (New "/data" []).2.1 = none ∧
    (Write sampleCodec (New "/data" []).1 (New "/data" []).2.2 "Users" "John"
      Sample.john).1 = none ∧
    lookup (Write sampleCodec (New "/data" []).1 (New "/data" []).2.2 "Users" "John"
      Sample.john).2.2 "/data/Users/John.json" = none ∧
    lookup (Write sampleCodec (New "/data" []).1 (New "/data" []).2.2 "Users" "John"
      Sample.john).2.2 "Users/John.json" =
        some (Node.file "\x7b\n\t\"Name\": \"John\"\n\x7d\n") := by
  refine ⟨?_, by decide⟩
  intro root fs
  unfold New
  simp only
  split <;> rfl

/-- C4. With the record stored at `Users/John.json`, `Read` under the name
`John` decodes it, and `Read` under the name `John.json` finds the file by its
literal path and then fails to open `Users/John.json.json`. -/
theorem read_with_suffix_fails :
    (Read sampleCodec { mutexes := [], dir := "", locked := [] }
      [("Users/John.json", Node.file "\x7b\n\t\"Name\": \"John\"\n\x7d\n"), ("Users", Node.dir)]
      "Users" "John" : Option Error × Option Sample) = (none, some Sample.john) ∧
    (stat [("Users/John.json", Node.file "\x7b\n\t\"Name\": \"John\"\n\x7d\n"),
      ("Users", Node.dir)] "Users/John.json").2 = none ∧
    (Read sampleCodec { mutexes := [], dir := "", locked := [] }
      [("Users/John.json", Node.file "\x7b\n\t\"Name\": \"John\"\n\x7d\n"), ("Users", Node.dir)]
      "Users" "John.json" : Option Error × Option Sample) = (some Error.notExist, none) := by
  decide

/-- C6. With the record stored at `Users/John.json`, the resolver finds the
regular file under the literal name `John.json`; `Delete` then removes
`Users/John.json.json`, returns no error, and the file it found is still there. -/
theorem delete_literal_file_stays :
    stat [("Users/John.json", Node.file "x"), ("Users", Node.dir)]
      (deletePath { mutexes := [], dir := "", locked := [] } "Users" "John.json") =
        (some (Node.file "x"), none) ∧
    (Delete { mutexes := [], dir := "", locked := [] }
      [("Users/John.json", Node.file "x"), ("Users", Node.dir)] "Users" "John.json").1 =
        none ∧
    (Delete { mutexes := [], dir := "", locked := [] }
      [("Users/John.json", Node.file "x"), ("Users", Node.dir)] "Users" "John.json").2.2 =
        [("Users/John.json", Node.file "x"), ("Users", Node.dir)] := by
  decide

/-- C9. A channel cannot be encoded, and `Write` of it returns no error: it
makes the collection directory and writes no file. -/
theorem write_swallows_encode_error :
    sampleCodec.marshalIndent Sample.channel "" "\t" = none ∧
    Write sampleCodec { mutexes := [], dir := "", locked := [] } [] "Users" "John"
      Sample.channel =
        (none, { mutexes := [("Users", 1)], dir := "", locked := [] },
          [("Users", Node.dir)]) := by
  decide

/-- C5, as stated, fails for `Delete`: it has no check of its names. With an
empty resource name it removes the collection directory, and with an empty
collection name it removes what the resource name alone names; both calls
return no error. -/
theorem delete_accepts_empty_names :
    Delete { mutexes := [], dir := "", locked := [] }
      [("Users/John.json", Node.file "x"), ("Users", Node.dir)] "Users" "" =
        (none, { mutexes := [("Users", 1)], dir := "", locked := [] }, []) ∧
    Delete { mutexes := [], dir := "", locked := [] }
      [("Users/John.json", Node.file "x"), ("Users", Node.dir)] "" "Users" =
        (none, { mutexes := [("", 1)], dir := "", locked := [] }, []) := by
  decide

/-- C5, amended. `Write`, `Read` and `ReadAll` reject an empty collection name
and (for `Write` and `Read`) an empty resource name with a `fmt.Errorf` error;
`Write` then leaves the filesystem and the driver as they were, `Read` leaves
its target alone, and `Read` and `ReadAll` never change the filesystem. -/
theorem empty_names_rejected {V : Type} (codec : Codec V) (d : Driver) (fs : FS)
    (c r : String) (v : V) (h : c = "" ∨ r = "") :
    (∃ msg, Write codec d fs c r v = (some (Error.errorf msg), d, fs)) ∧
    (∃ msg, (Read codec d fs c r : Option Error × Option V) =
      (some (Error.errorf msg), none)) ∧
    ReadAll d fs "" =
      ([], some (Error.errorf "collection is missing- unable to ReadAll")) := by
  refine ⟨?_, ?_, by simp [ReadAll]⟩
  · by_cases hc : c = ""
    · exact ⟨"missing collection- no place to save", by simp [Write, hc]⟩
    · have hr : r = "" := h.resolve_left hc
      exact ⟨"missing resources- Ntg to save", by simp [Write, hc, hr]⟩
  · by_cases hr : r = ""
    · exact ⟨"missing Resources- Ntg to read", by simp [Read, hr]⟩
    · have hc : c = "" := h.resolve_right hr
      exact ⟨"collection is empty- Ntg to read", by simp [Read, hc, hr]⟩

/-- C5, amended, at an empty resource name. -/
theorem empty_names_rejected_witness :
    (∃ msg, Write sampleCodec { mutexes := [], dir := "", locked := [] }
      [("Users", Node.dir)] "Users" "" Sample.john =
        (some (Error.errorf msg), { mutexes := [], dir := "", locked := [] },
          [("Users", Node.dir)])) ∧
    (∃ msg, (Read sampleCodec { mutexes := [], dir := "", locked := [] }
      [("Users", Node.dir)] "Users" "" : Option Error × Option Sample) =
        (some (Error.errorf msg), none)) ∧
    ReadAll { mutexes := [], dir := "", locked := [] } [("Users", Node.dir)] "" =
      ([], some (Error.errorf "collection is missing- unable to ReadAll")) :=
  empty_names_rejected sampleCodec { mutexes := [], dir := "", locked := [] }
    [("Users", Node.dir)] "Users" "" Sample.john (Or.inr rfl)

theorem deleteLocked_dir (d : Driver) (fs : FS) (c r : String)
    (h : stat fs (deletePath d c r) = (some Node.dir, none)) :
    deleteLocked d fs c r = (none, (osRemoveAll fs (deletePath d c r)).1) := by
  simp only [deleteLocked, h]
  rfl

theorem Delete_fs (d : Driver) (fs : FS) (c r : String) :
    ((Delete d fs c r).1, (Delete d fs c r).2.2) =
      deleteLocked (unlock (getOrCreateMutex d c).1
        (lock (getOrCreateMutex d c).1 (getOrCreateMutex d c).2)) fs c r := by
  simp [Delete, deleteLocked, deletePath, lock, unlock]

theorem deletePath_congr (d d1 : Driver) (c r : String) (h : d1.dir = d.dir) :
    deletePath d1 c r = deletePath d c r := by
  simp [deletePath, h]

/-- Whenever the path resolver reports a directory for the path `Delete` builds,
`Delete` returns no error, afterwards nothing exists at that path or beneath it,
and every other path names what it named before. -/
theorem Delete_removes_built_path (d : Driver) (fs : FS) (c r : String)
    (h : stat fs (deletePath d c r) = (some Node.dir, none)) :
    (Delete d fs c r).1 = none ∧
    (∀ q, under (deletePath d c r) q = true → lookup (Delete d fs c r).2.2 q = none) ∧
    (∀ q, under (deletePath d c r) q = false →
      lookup (Delete d fs c r).2.2 q = lookup fs q) := by
  have hp : deletePath (unlock (getOrCreateMutex d c).1
      (lock (getOrCreateMutex d c).1 (getOrCreateMutex d c).2)) c r = deletePath d c r :=
    deletePath_congr _ _ _ _ (by rw [unlock_lock_dir, getOrCreateMutex_dir])
  have hd := Delete_fs d fs c r
  rw [deleteLocked_dir _ fs c r (by rw [hp]; exact h), hp] at hd
  have h1 : (Delete d fs c r).1 = none := congrArg Prod.fst hd
  have h2 : (Delete d fs c r).2.2 = (osRemoveAll fs (deletePath d c r)).1 :=
    congrArg Prod.snd hd
  refine ⟨h1, ?_, ?_⟩
  · intro q hq
    rw [h2, lookup_osRemoveAll, hq]; rfl
  · intro q hq
    rw [h2, lookup_osRemoveAll, hq]; rfl

/-- C7. With the directory `Users/John.json` and no entry `Users/John`, the path
resolver reports a directory for `Users/John` through the `.json` suffix;
`Delete` then removes `Users/John`, which does not exist, returns no error, and
the directory it found and the file in it are still there. For a directory found
under its own name, the empty resource name included, the subtree does go. -/
theorem delete_suffixed_directory_stays :
    stat [("Users/John.json/a.json", Node.file "x"), ("Users/John.json", Node.dir),
        ("Users", Node.dir)]
      (deletePath { mutexes := [], dir := "", locked := [] } "Users" "John") =
        (some Node.dir, none) ∧
    (Delete { mutexes := [], dir := "", locked := [] }
      [("Users/John.json/a.json", Node.file "x"), ("Users/John.json", Node.dir),
        ("Users", Node.dir)] "Users" "John").1 = none ∧
    (Delete { mutexes := [], dir := "", locked := [] }
      [("Users/John.json/a.json", Node.file "x"), ("Users/John.json", Node.dir),
        ("Users", Node.dir)] "Users" "John").2.2 =
      [("Users/John.json/a.json", Node.file "x"), ("Users/John.json", Node.dir),
        ("Users", Node.dir)] ∧
    (Delete { mutexes := [], dir := "", locked := [] }
      [("Users/John.json/a.json", Node.file "x"), ("Users/John.json", Node.dir),
        ("Users", Node.dir)] "Users" "").2.2 = [] := by
  decide

theorem lookup_osMkdir_cases (fs : FS) (p q : String) :
    lookup (osMkdir fs p).1 q = lookup fs q ∨
      (q = p ∧ lookup fs q = none ∧ lookup (osMkdir fs p).1 q = some Node.dir) := by
  by_cases hq : q = p
  · subst hq
    unfold osMkdir
    split
    · exact Or.inl rfl
    · split
      · exact Or.inl rfl
      · next h =>
        split
        · have hnone : lookup fs q = none := by
            simp only [not_or, ne_eq, not_not] at h
            exact h.2.2
          exact Or.inr ⟨rfl, hnone, by simp [lookup]⟩
        · exact Or.inl rfl
  · exact Or.inl (lookup_osMkdir fs p q hq)

theorem lookup_osMkdirAllAux_cases (l : List String) (fs : FS) (q : String) :
    lookup (osMkdirAllAux fs l).1 q = lookup fs q ∨
      (q ∈ l ∧ lookup fs q = none ∧ lookup (osMkdirAllAux fs l).1 q = some Node.dir) := by
  induction l with
  | nil => exact Or.inl rfl
  | cons p rest ih =>
    simp only [osMkdirAllAux]
    split
    · exact Or.inl rfl
    · split
      · exact Or.inl rfl
      · exact Or.inl rfl
      · split
        · next fs1 err heq =>
          rw [heq] at ih
          rcases ih with h | ⟨h1, h2, h3⟩
          · exact Or.inl h
          · exact Or.inr ⟨List.mem_cons_of_mem _ h1, h2, h3⟩
        · next fs1 heq =>
          rw [heq] at ih
          simp only at ih
          rcases lookup_osMkdir_cases fs1 p q with h | ⟨h1, h2, h3⟩
          · rcases ih with h4 | ⟨h4, h5, h6⟩
            · exact Or.inl (h.trans h4)
            · exact Or.inr ⟨List.mem_cons_of_mem _ h4, h5, h.trans h6⟩
          · rcases ih with h4 | ⟨_, _, h6⟩
            · exact Or.inr ⟨by simp [h1], h4 ▸ h2, h3⟩
            · rw [h2] at h6; cases h6

/-- What the final path of a `Write` may name at a point of the step sequence:
what it named before, the regular file with the complete new content, or, when
the final path is the collection directory or one of its ancestors and named
nothing before, the directory that `MkdirAll` made there. -/
theorem writeStateTmp_final {V : Type} (codec : Codec V) (d : Driver) (fs : FS)
    (c r : String) (v : V) (w : String) :
    lookup (writeStateTmp codec d fs c r v w) (finalPath d c r) =
        lookup fs (finalPath d c r) ∨
      (finalPath d c r ∈ selfAndAncestors (collectionDir d c) ∧
        lookup fs (finalPath d c r) = none ∧
        lookup (writeStateTmp codec d fs c r v w) (finalPath d c r) = some Node.dir) := by
  have hdir := lookup_osMkdirAllAux_cases (selfAndAncestors (collectionDir d c)) fs
    (finalPath d c r)
  have hne : finalPath d c r ≠ tmpPath d c r := by
    unfold tmpPath; exact (append_tmp_ne _).symm
  unfold writeStateTmp osMkdirAll
  split
  · next fs1 e heq => rw [heq] at hdir; exact hdir
  · next fs1 heq =>
    rw [heq] at hdir
    split
    · exact hdir
    · rw [lookup_ioutilWriteFile_other _ _ _ _ hne]
      exact hdir

theorem writeLocked_final {V : Type} (codec : Codec V) (d : Driver) (fs : FS)
    (c r : String) (v : V) :
    lookup (writeLocked codec d fs c r v).2 (finalPath d c r) =
        lookup fs (finalPath d c r) ∨
      (∃ b, codec.marshalIndent v "" "\t" = some b ∧
        lookup (writeLocked codec d fs c r v).2 (finalPath d c r) =
          some (Node.file (b ++ "\n"))) ∨
      (finalPath d c r ∈ selfAndAncestors (collectionDir d c) ∧
        lookup fs (finalPath d c r) = none ∧
        lookup (writeLocked codec d fs c r v).2 (finalPath d c r) = some Node.dir) := by
  have hdir := lookup_osMkdirAllAux_cases (selfAndAncestors (collectionDir d c)) fs
    (finalPath d c r)
  have hne : finalPath d c r ≠ tmpPath d c r := by
    unfold tmpPath; exact (append_tmp_ne _).symm
  have hlift : ∀ fs1 : FS,
      (lookup fs1 (finalPath d c r) = lookup fs (finalPath d c r) ∨
        (finalPath d c r ∈ selfAndAncestors (collectionDir d c) ∧
          lookup fs (finalPath d c r) = none ∧
          lookup fs1 (finalPath d c r) = some Node.dir)) →
      (lookup fs1 (finalPath d c r) = lookup fs (finalPath d c r) ∨
        (∃ b, codec.marshalIndent v "" "\t" = some b ∧
          lookup fs1 (finalPath d c r) = some (Node.file (b ++ "\n"))) ∨
        (finalPath d c r ∈ selfAndAncestors (collectionDir d c) ∧
          lookup fs (finalPath d c r) = none ∧
          lookup fs1 (finalPath d c r) = some Node.dir)) := by
    intro fs1 h
    rcases h with h | h
    · exact Or.inl h
    · exact Or.inr (Or.inr h)
  unfold writeLocked osMkdirAll
  simp only
  split
  · next fs1 e heq => rw [heq] at hdir; exact hlift fs1 hdir
  · next fs1 heq =>
    rw [heq] at hdir
    simp only at hdir
    split
    · exact hlift fs1 hdir
    · next b hb =>
      have h2 := lookup_ioutilWriteFile_other fs1 (tmpPath d c r) (b ++ "\n") _ hne
      split
      · next fs2 e hw =>
        rw [hw] at h2
        exact hlift fs2 (h2 ▸ hdir)
      · next fs2 hw =>
        have h3 := lookup_ioutilWriteFile_ok fs1 (tmpPath d c r) (b ++ "\n")
          (by rw [hw])
        rw [hw] at h2 h3
        rcases lookup_osRename_new fs2 (tmpPath d c r) (finalPath d c r) _ h3 with h4 | h4
        · apply hlift
          rw [h4]
          exact h2 ▸ hdir
        · exact Or.inr (Or.inl ⟨b, hb, h4⟩)

theorem writeStateAt_steps {V : Type} (codec : Codec V) (d : Driver) (fs : FS)
    (c r : String) (v : V) (b : String)
    (hmk : (osMkdirAll fs (collectionDir d c)).2 = none)
    (hb : codec.marshalIndent v "" "\t" = some b) :
    (∀ w, writeStateAt codec d fs c r v (WritePoint.tmpPartial w) =
      (ioutilWriteFile (writeStateAt codec d fs c r v WritePoint.dirMade)
        (tmpPath d c r) w).1) ∧
    writeStateAt codec d fs c r v WritePoint.tmpWritten =
      (ioutilWriteFile (writeStateAt codec d fs c r v WritePoint.dirMade)
        (tmpPath d c r) (b ++ "\n")).1 ∧
    ((ioutilWriteFile (writeStateAt codec d fs c r v WritePoint.dirMade)
        (tmpPath d c r) (b ++ "\n")).2 = none →
      writeStateAt codec d fs c r v WritePoint.renamed =
        (osRename (writeStateAt codec d fs c r v WritePoint.tmpWritten)
          (tmpPath d c r) (finalPath d c r)).1) := by
  have hpair : osMkdirAll fs (collectionDir d c) =
      ((osMkdirAll fs (collectionDir d c)).1, none) := by
    rw [← hmk]
  have htmp : ∀ w, writeStateTmp codec d fs c r v w =
      (ioutilWriteFile (osMkdirAll fs (collectionDir d c)).1 (tmpPath d c r) w).1 := by
    intro w
    unfold writeStateTmp
    rw [hpair, hb]
  refine ⟨fun w => htmp w, ?_, ?_⟩
  · simp only [writeStateAt, hb, Option.getD_some]
    exact htmp _
  · intro hw
    have hwpair : ioutilWriteFile (osMkdirAll fs (collectionDir d c)).1 (tmpPath d c r)
        (b ++ "\n") =
        ((ioutilWriteFile (osMkdirAll fs (collectionDir d c)).1 (tmpPath d c r)
          (b ++ "\n")).1, none) := by
      simp only [writeStateAt] at hw
      rw [← hw]
    simp only [writeStateAt, hb, Option.getD_some, htmp]
    unfold writeLocked
    simp only
    rw [hpair, hb]
    simp only
    rw [hwpair]

/-- C3, as stated, fails when the names make the final path the collection
directory: for the collection `x.json` and the resource `../x` the final path is
`x.json`, it names nothing before the `Write`, `MkdirAll` makes it a directory,
the rename onto it fails, and `Write` returns that error with the final path a
directory. -/
theorem write_final_path_made_directory :
    finalPath { mutexes := [], dir := "", locked := [] } "x.json" "../x" = "x.json" ∧
    collectionDir { mutexes := [], dir := "", locked := [] } "x.json" = "x.json" ∧
    lookup [] "x.json" = none ∧
    Write sampleCodec { mutexes := [], dir := "", locked := [] } [] "x.json" "../x"
      Sample.john =
        (some Error.exist, { mutexes := [("x.json", 1)], dir := "", locked := [] },
          [("x.json.tmp", Node.file "\x7b\n\t\"Name\": \"John\"\n\x7d\n"),
            ("x.json", Node.dir)]) := by
  decide

/-- C3, amended. `Write` as its sequence of filesystem steps (make the
collection directory, write the temporary file, rename it onto the final path).
The filesystem `Write` leaves is the state after the last step, or the state it
started from when a name is empty; each point of the sequence is reached from the
one before by the call `Write` makes there. At every point, a partly written
temporary file and a failed step included, the final path names what it named
before the `Write`, or the regular file with the complete new content, or, only
when the final path is the collection directory or one of its ancestors and
named nothing before, the directory the first step made there. It never holds
partial content. -/
theorem write_is_atomic {V : Type} (codec : Codec V) (d : Driver) (fs : FS)
    (c r : String) (v : V) :
    (c ≠ "" → r ≠ "" →
      (Write codec d fs c r v).2.2 = writeStateAt codec d fs c r v WritePoint.renamed) ∧
    (c = "" ∨ r = "" →
      (Write codec d fs c r v).2.2 = writeStateAt codec d fs c r v WritePoint.start) ∧
    writeStateAt codec d fs c r v WritePoint.dirMade =
      (osMkdirAll (writeStateAt codec d fs c r v WritePoint.start)
        (collectionDir d c)).1 ∧
    (∀ b, (osMkdirAll fs (collectionDir d c)).2 = none →
      codec.marshalIndent v "" "\t" = some b →
      (∀ w, writeStateAt codec d fs c r v (WritePoint.tmpPartial w) =
        (ioutilWriteFile (writeStateAt codec d fs c r v WritePoint.dirMade)
          (tmpPath d c r) w).1) ∧
      writeStateAt codec d fs c r v WritePoint.tmpWritten =
        (ioutilWriteFile (writeStateAt codec d fs c r v WritePoint.dirMade)
          (tmpPath d c r) (b ++ "\n")).1 ∧
      ((ioutilWriteFile (writeStateAt codec d fs c r v WritePoint.dirMade)
          (tmpPath d c r) (b ++ "\n")).2 = none →
        writeStateAt codec d fs c r v WritePoint.renamed =
          (osRename (writeStateAt codec d fs c r v WritePoint.tmpWritten)
            (tmpPath d c r) (finalPath d c r)).1)) ∧
    ∀ pt, lookup (writeStateAt codec d fs c r v pt) (finalPath d c r) =
        lookup fs (finalPath d c r) ∨
      (∃ b, codec.marshalIndent v "" "\t" = some b ∧
        lookup (writeStateAt codec d fs c r v pt) (finalPath d c r) =
          some (Node.file (b ++ "\n"))) ∨
      (finalPath d c r ∈ selfAndAncestors (collectionDir d c) ∧
        lookup fs (finalPath d c r) = none ∧
        lookup (writeStateAt codec d fs c r v pt) (finalPath d c r) = some Node.dir) := by
  refine ⟨?_, ?_, rfl, fun b hmk hb => writeStateAt_steps codec d fs c r v b hmk hb, ?_⟩
  · intro hc hr
    exact congrArg Prod.snd (Write_fs codec d fs c r v hc hr)
  · intro h
    rcases h with h | h
    · simp [Write, h, writeStateAt]
    · by_cases hc : c = ""
      · simp [Write, hc, writeStateAt]
      · simp [Write, hc, h, writeStateAt]
  · intro pt
    have hlift : ∀ fs1 : FS,
        (lookup fs1 (finalPath d c r) = lookup fs (finalPath d c r) ∨
          (finalPath d c r ∈ selfAndAncestors (collectionDir d c) ∧
            lookup fs (finalPath d c r) = none ∧
            lookup fs1 (finalPath d c r) = some Node.dir)) →
        (lookup fs1 (finalPath d c r) = lookup fs (finalPath d c r) ∨
          (∃ b, codec.marshalIndent v "" "\t" = some b ∧
            lookup fs1 (finalPath d c r) = some (Node.file (b ++ "\n"))) ∨
          (finalPath d c r ∈ selfAndAncestors (collectionDir d c) ∧
            lookup fs (finalPath d c r) = none ∧
            lookup fs1 (finalPath d c r) = some Node.dir)) := by
      intro fs1 h
      rcases h with h | h
      · exact Or.inl h
      · exact Or.inr (Or.inr h)
    cases pt with
    | start => exact Or.inl rfl
    | dirMade =>
      exact hlift _ (lookup_osMkdirAllAux_cases _ fs (finalPath d c r))
    | tmpPartial w => exact hlift _ (writeStateTmp_final codec d fs c r v w)
    | tmpWritten => exact hlift _ (writeStateTmp_final codec d fs c r v _)
    | renamed => exact writeLocked_final codec d fs c r v

/-- C3, amended, at an overwrite of `Users/John.json` that is cut short while the
temporary file is half written: the final path holds the old content, the
complete new one, or a directory just made. -/
theorem write_is_atomic_witness :
    lookup (writeStateAt sampleCodec { mutexes := [], dir := "", locked := [] }
      [("Users/John.json", Node.file "old"), ("Users", Node.dir)] "Users" "John"
      Sample.john (WritePoint.tmpPartial "\x7b\n\t\"Na")) "Users/John.json" =
        lookup [("Users/John.json", Node.file "old"), ("Users", Node.dir)]
          "Users/John.json" ∨
      (∃ b, sampleCodec.marshalIndent Sample.john "" "\t" = some b ∧
        lookup (writeStateAt sampleCodec { mutexes := [], dir := "", locked := [] }
          [("Users/John.json", Node.file "old"), ("Users", Node.dir)] "Users" "John"
          Sample.john (WritePoint.tmpPartial "\x7b\n\t\"Na")) "Users/John.json" =
            some (Node.file (b ++ "\n"))) ∨
      ("Users/John.json" ∈ selfAndAncestors "Users" ∧
        lookup [("Users/John.json", Node.file "old"), ("Users", Node.dir)]
          "Users/John.json" = none ∧
        lookup (writeStateAt sampleCodec { mutexes := [], dir := "", locked := [] }
          [("Users/John.json", Node.file "old"), ("Users", Node.dir)] "Users" "John"
          Sample.john (WritePoint.tmpPartial "\x7b\n\t\"Na")) "Users/John.json" =
            some Node.dir) :=
  (write_is_atomic sampleCodec { mutexes := [], dir := "", locked := [] }
    [("Users/John.json", Node.file "old"), ("Users", Node.dir)] "Users" "John"
    Sample.john).2.2.2.2 (WritePoint.tmpPartial "\x7b\n\t\"Na")

theorem writeLocked_ok {V : Type} (codec : Codec V) (d : Driver) (fs : FS)
    (c r : String) (v : V) (b : String) (hb : codec.marshalIndent v "" "\t" = some b)
    (hok : (writeLocked codec d fs c r v).1 = none) :
    lookup (writeLocked codec d fs c r v).2 (finalPath d c r) =
      some (Node.file (b ++ "\n")) := by
  unfold writeLocked at hok ⊢
  simp only at hok ⊢
  split at hok
  · cases hok
  · next fs1 _ =>
    rw [hb] at hok ⊢
    simp only at hok ⊢
    split at hok
    · cases hok
    · next fs2 hw =>
      have h3 := lookup_ioutilWriteFile_ok fs1 (tmpPath d c r) (b ++ "\n") (by rw [hw])
      rw [hw] at h3
      exact lookup_osRename_ok fs2 _ _ _ h3 hok

theorem Write_dir {V : Type} (codec : Codec V) (d : Driver) (fs : FS)
    (c r : String) (v : V) : (Write codec d fs c r v).2.1.dir = d.dir := by
  rw [Write_driver]
  split
  · rfl
  · rw [unlock_lock_dir, getOrCreateMutex_dir]

theorem osStat_cases (fs : FS) (p : String) :
    (∃ n, osStat fs p = (some n, none)) ∨ osStat fs p = (none, some Error.notExist) := by
  unfold osStat
  split
  · exact Or.inr rfl
  · cases lookup fs p with
    | none => exact Or.inr rfl
    | some n => exact Or.inl ⟨n, rfl⟩

theorem osStat_of_lookup (fs : FS) (p : String) (n : Node) (hp : p ≠ "")
    (h : lookup fs p = some n) : osStat fs p = (some n, none) := by
  simp [osStat, hp, h]

theorem stat_ok_of_json (fs : FS) (p : String) (n : Node)
    (h : osStat fs (p ++ ".json") = (some n, none)) : (stat fs p).2 = none := by
  unfold stat
  rcases osStat_cases fs p with ⟨m, hm⟩ | hm
  · simp [hm, isNotExist]
  · simp [hm, isNotExist, h]

theorem ioutilReadFile_of_lookup (fs : FS) (p c : String) (hp : p ≠ "")
    (h : lookup fs p = some (Node.file c)) : ioutilReadFile fs p = (c, none) := by
  simp [ioutilReadFile, osStat_of_lookup fs p _ hp h]

theorem append_ne_empty (a b : String) (hb : b ≠ "") : a ++ b ≠ "" := by
  intro e
  have h1 := congrArg String.data e
  rw [String.data_append] at h1
  have h2 : b.data = [] := (List.append_eq_nil.mp h1).2
  exact hb (String.ext h2)

theorem finalPath_eq_record (d : Driver) (c r : String) (hc : c ≠ "")
    (hr : keptElem (lastElem r)) :
    finalPath d c r = join [d.dir, c, r] ++ ".json" := by
  unfold finalPath collectionDir
  exact join_join_json d.dir c r hc hr

theorem lastElem_ne_empty (r : String) (hr : keptElem (lastElem r)) : r ≠ "" := by
  intro e
  subst e
  exact hr.1 (by decide)

/-- C1, as stated, fails for resource names whose last element is `.`, empty or
`..`: `Write` appends `.json` before the path is cleaned and `Read` after. For
the name `.` `Write` stores `c/..json` and `Read` opens `c.json`; for `a/`
`Write` stores `c/a/.json` and `Read` opens `c/a.json`; for `x/..` `Write` stores
`c/x/...json` and `Read` opens `c.json`. Each `Write` returns no error and each
`Read` a not-exist error. -/
theorem write_then_read_dot_fails :
    ((Write sampleCodec { mutexes := [], dir := "", locked := [] } [] "c" "."
        Sample.john).1 = none ∧
      (Read sampleCodec
        (Write sampleCodec { mutexes := [], dir := "", locked := [] } [] "c" "."
          Sample.john).2.1
        (Write sampleCodec { mutexes := [], dir := "", locked := [] } [] "c" "."
          Sample.john).2.2 "c" "." : Option Error × Option Sample) =
        (some Error.notExist, none)) ∧
    ((Write sampleCodec { mutexes := [], dir := "", locked := [] }
        [("c/a", Node.dir), ("c", Node.dir)] "c" "a/" Sample.john).1 = none ∧
      (Read sampleCodec
        (Write sampleCodec { mutexes := [], dir := "", locked := [] }
          [("c/a", Node.dir), ("c", Node.dir)] "c" "a/" Sample.john).2.1
        (Write sampleCodec { mutexes := [], dir := "", locked := [] }
          [("c/a", Node.dir), ("c", Node.dir)] "c" "a/" Sample.john).2.2 "c" "a/" :
          Option Error × Option Sample) = (some Error.notExist, none)) ∧
    ((Write sampleCodec { mutexes := [], dir := "", locked := [] }
        [("c/x", Node.dir), ("c", Node.dir)] "c" "x/.." Sample.john).1 = none ∧
      (Read sampleCodec
        (Write sampleCodec { mutexes := [], dir := "", locked := [] }
          [("c/x", Node.dir), ("c", Node.dir)] "c" "x/.." Sample.john).2.1
        (Write sampleCodec { mutexes := [], dir := "", locked := [] }
          [("c/x", Node.dir), ("c", Node.dir)] "c" "x/.." Sample.john).2.2 "c" "x/.." :
          Option Error × Option Sample) = (some Error.notExist, none)) := by
  decide

/-- C1, amended. For every driver, every non-empty collection name, every
resource name whose last slash-separated element is a plain element (not empty,
not `.`, not `..`), and every value that encodes to `b` and that the decoder
gets back from `b` followed by a newline: when `Write` returns no error, the
`Read` that follows returns no error and the value. -/
theorem write_then_read {V : Type} (codec : Codec V) (d : Driver) (fs : FS)
    (c r : String) (v : V) (b : String) (hc : c ≠ "") (hr : keptElem (lastElem r))
    (hb : codec.marshalIndent v "" "\t" = some b)
    (hrt : codec.unmarshal (b ++ "\n") = some v)
    (hw : (Write codec d fs c r v).1 = none) :
    Read codec (Write codec d fs c r v).2.1 (Write codec d fs c r v).2.2 c r =
      (none, some v) := by
  have hr0 := lastElem_ne_empty r hr
  have hfs := Write_fs codec d fs c r v hc hr0
  have hok : (writeLocked codec d fs c r v).1 = none := by
    rw [← hfs]; exact hw
  have hlook := writeLocked_ok codec d fs c r v b hb hok
  rw [← hfs] at hlook
  simp only at hlook
  rw [finalPath_eq_record d c r hc hr] at hlook
  have hdir : (Write codec d fs c r v).2.1.dir = d.dir := Write_dir codec d fs c r v
  have hne : join [d.dir, c, r] ++ ".json" ≠ "" := append_ne_empty _ _ (by decide)
  have hstat := stat_ok_of_json (Write codec d fs c r v).2.2 (join [d.dir, c, r]) _
    (osStat_of_lookup _ _ _ hne hlook)
  have hread := ioutilReadFile_of_lookup _ _ _ hne hlook
  unfold Read
  simp only [hr0, hc, if_false, hdir, hstat, hread, hrt]

/-- C1, amended, at the nested collection `Users/archive` and the resource name
`./John`. -/
theorem write_then_read_witness :
    Read sampleCodec
      (Write sampleCodec { mutexes := [], dir := "", locked := [] }
        [] "Users/archive" "./John" Sample.john).2.1
      (Write sampleCodec { mutexes := [], dir := "", locked := [] }
        [] "Users/archive" "./John" Sample.john).2.2
      "Users/archive" "./John" = (none, some Sample.john) :=
  write_then_read sampleCodec { mutexes := [], dir := "", locked := [] }
    [] "Users/archive" "./John" Sample.john
    "\x7b\n\t\"Name\": \"John\"\n\x7d" (by decide) (by decide) (by decide) (by decide)
    (by decide)

/-! ## `ReadAll` after a run of `Write` calls -/

theorem dropPrefix_append (p q : List Char) : dropPrefix p (p ++ q) = some q := by
  induction p with
  | nil => simp [dropPrefix]
  | cons a rest ih => simp [dropPrefix, ih]

theorem child_data (c x : String) : (c ++ "/" ++ x).data = (c.data ++ ['/']) ++ x.data := by
  simp [String.data_append]

theorem under_child (c x : String) (hc : c ≠ "") : under c (c ++ "/" ++ x) = true := by
  simp only [under, child_data, dropPrefix_append]
  simp [hc]

theorem childName_child (c x : String) (hx : x.data ≠ []) (hs : '/' ∉ x.data) :
    childName c (c ++ "/" ++ x) = some x := by
  simp only [childName, child_data, dropPrefix_append]
  simp [hx, hs]

theorem filter_key_ne_self (fs : FS) (k : String) (h : ∀ e ∈ fs, e.1 ≠ k) :
    fs.filter (fun e => e.1 ≠ k) = fs := by
  rw [List.filter_eq_self]
  intro e he
  simpa using h e he

theorem lookup_none_of_keys (fs : FS) (k : String) (h : ∀ e ∈ fs, e.1 ≠ k) :
    lookup fs k = none := by
  induction fs with
  | nil => rfl
  | cons e rest ih =>
    obtain ⟨k1, n⟩ := e
    have h1 : k1 ≠ k := h (k1, n) (by simp)
    simp only [lookup, h1, if_false]
    exact ih (fun e he => h e (by simp [he]))

theorem noSlash_json_tmp (r : String) (hr : '/' ∉ r.data) :
    '/' ∉ (r ++ ".json" ++ ".tmp").data := by
  simp only [String.data_append, List.mem_append, not_or]
  exact ⟨⟨hr, by decide⟩, by decide⟩

theorem ioutilWriteFile_fresh (fs : FS) (c x b : String) (hc : c.data ≠ [])
    (hx : '/' ∉ x.data) (hdir : lookup fs c = some Node.dir)
    (hkeys : ∀ e ∈ fs, e.1 ≠ c ++ "/" ++ x) :
    ioutilWriteFile fs (c ++ "/" ++ x) b = ((c ++ "/" ++ x, Node.file b) :: fs, none) := by
  have hne : c ++ "/" ++ x ≠ "" := by
    intro e
    have := congrArg (fun s => s.data.length) e
    simp [String.data_append] at this
  have hnone := lookup_none_of_keys fs _ hkeys
  unfold ioutilWriteFile
  rw [if_neg hne, hnone, if_neg (by simp), parentDir_child c x hc hx]
  have : hasDir fs c = true := by simp [hasDir, hdir]
  rw [if_pos this, filter_key_ne_self fs _ hkeys]

theorem osRename_fresh (fs : FS) (c x old b : String) (hc : c.data ≠ [])
    (hx : '/' ∉ x.data) (hdir : lookup fs c = some Node.dir)
    (hkeys : ∀ e ∈ fs, e.1 ≠ c ++ "/" ++ x ∧ e.1 ≠ old)
    (hold : old ≠ c ++ "/" ++ x) (hcold : c ≠ old) :
    osRename ((old, Node.file b) :: fs) old (c ++ "/" ++ x) =
      ((c ++ "/" ++ x, Node.file b) :: fs, none) := by
  have hnone := lookup_none_of_keys fs _ (fun e he => (hkeys e he).1)
  have hlook : lookup ((old, Node.file b) :: fs) (c ++ "/" ++ x) = none := by
    simp [lookup, hold, hnone]
  have hparent : hasDir ((old, Node.file b) :: fs) c = true := by
    have : old ≠ c := fun e => hcold e.symm
    simp [hasDir, lookup, this, hdir]
  unfold osRename
  simp only [lookup, if_true]
  have hl2 : lookup fs (c ++ "/" ++ x) = none := hnone
  simp only [hold, if_false, hl2, parentDir_child c x hc hx, hparent, if_true]
  simp only [List.filter_cons]
  simp [hold]
  intro a n h
  exact ⟨(hkeys _ h).2, (hkeys _ h).1⟩

theorem child_ne_parent (c x : String) : c ≠ c ++ "/" ++ x := by
  intro e
  have := congrArg (fun s => s.data.length) e
  simp [String.data_append] at this

theorem key_inj (c r1 r2 : String)
    (h : c ++ "/" ++ (r1 ++ ".json") = c ++ "/" ++ (r2 ++ ".json")) : r1 = r2 := by
  have h1 := congrArg String.data h
  simp only [String.data_append, List.append_assoc] at h1
  have h2 := List.append_cancel_left h1
  have h3 := List.append_cancel_left h2
  exact String.ext (List.append_cancel_right h3)

theorem key_ne_tmp (c r1 r2 : String) :
    c ++ "/" ++ (r1 ++ ".json") ≠ c ++ "/" ++ (r2 ++ ".json") ++ ".tmp" := by
  intro h
  have h1 := congrArg String.data h
  simp only [String.data_append, List.append_assoc] at h1
  have h2 := List.append_cancel_left (List.append_cancel_left h1)
  have h3 := congrArg (fun l => l.reverse.head?) h2
  simp at h3

theorem lookup_append_of_keys (l t : FS) (k : String) (h : ∀ e ∈ l, e.1 ≠ k) :
    lookup (l ++ t) k = lookup t k := by
  induction l with
  | nil => rfl
  | cons e rest ih =>
    obtain ⟨k1, n⟩ := e
    have h1 : k1 ≠ k := h (k1, n) (by simp)
    simp only [List.cons_append, lookup, h1, if_false]
    exact ih (fun e he => h e (by simp [he]))

theorem stored_eq {V : Type} (codec : Codec V) (v : V) (b : String)
    (hb : codec.marshalIndent v "" "\t" = some b) : stored codec v = b ++ "\n" := by
  simp [stored, hb]

theorem dropPrefix_eq (p q rest : List Char) (h : dropPrefix p q = some rest) :
    q = p ++ rest := by
  induction p generalizing q with
  | nil => simp [dropPrefix] at h; simp [h]
  | cons a p1 ih =>
    cases q with
    | nil => simp [dropPrefix] at h
    | cons b q1 =>
      simp only [dropPrefix] at h
      split at h
      · next hab => rw [ih q1 h, hab]; rfl
      · cases h

theorem childName_eq (D k x : String) (h : childName D k = some x) :
    k = D ++ "/" ++ x := by
  unfold childName at h
  cases hd : dropPrefix (D.data ++ ['/']) k.data with
  | none => rw [hd] at h; cases h
  | some rest =>
    rw [hd] at h
    simp only at h
    split at h
    · simp only [Option.some.injEq] at h
      subst h
      apply String.ext
      rw [child_data]
      exact dropPrefix_eq _ _ _ hd
    · cases h

theorem prefixesAux_last (acc cs : List Char) :
    ∃ L, prefixesAux acc cs = L ++ [acc ++ cs] := by
  induction cs generalizing acc with
  | nil => exact ⟨[], by simp [prefixesAux]⟩
  | cons c rest ih =>
    obtain ⟨L, hL⟩ := ih (acc ++ [c])
    simp only [prefixesAux]
    split
    · exact ⟨acc :: L, by simp [hL]⟩
    · exact ⟨L, by simp [hL]⟩

theorem selfAndAncestors_head (p : String) : ∃ rest, selfAndAncestors p = p :: rest := by
  obtain ⟨L, hL⟩ := prefixesAux_last [] p.data
  refine ⟨(L.map String.mk).reverse, ?_⟩
  simp [selfAndAncestors, hL]

theorem osMkdirAll_exists (fs : FS) (D : String) (h0 : D ≠ "") (h1 : D ≠ ".")
    (h2 : D ≠ "/") (h : lookup fs D = some Node.dir) : osMkdirAll fs D = (fs, none) := by
  obtain ⟨rest, hrest⟩ := selfAndAncestors_head D
  simp [osMkdirAll, hrest, osMkdirAllAux, h1, h2, osStat, h0, h]

theorem osMkdir_ok_shape (fs fs1 : FS) (p : String) (h : osMkdir fs p = (fs1, none)) :
    fs1 = (p, Node.dir) :: fs := by
  unfold osMkdir at h
  split at h
  · cases h
  · split at h
    · cases h
    · split at h
      · simp only [Prod.mk.injEq, and_true] at h
        exact h.symm
      · cases h

theorem osMkdirAllAux_ok_shape (l : List String) (fs fs1 : FS)
    (h : osMkdirAllAux fs l = (fs1, none)) :
    ∃ A : FS, fs1 = A ++ fs ∧ ∀ e ∈ A, e.1 ∈ l ∧ e.2 = Node.dir := by
  induction l generalizing fs1 with
  | nil =>
    simp only [osMkdirAllAux, Prod.mk.injEq, and_true] at h
    exact ⟨[], by simp [h]⟩
  | cons p rest ih =>
    simp only [osMkdirAllAux] at h
    split at h
    · simp only [Prod.mk.injEq, and_true] at h
      exact ⟨[], by simp [h]⟩
    · split at h
      · simp only [Prod.mk.injEq, and_true] at h
        exact ⟨[], by simp [h]⟩
      · cases h
      · split at h
        · cases h
        · next fs2 heq =>
          obtain ⟨A, hA, hmem⟩ := ih fs2 heq
          have := osMkdir_ok_shape fs2 fs1 p h
          refine ⟨(p, Node.dir) :: A, by simp [this, hA], ?_⟩
          intro e he
          simp only [List.mem_cons] at he
          rcases he with e1 | e1
          · subst e1; simp
          · exact ⟨List.mem_cons_of_mem _ (hmem e e1).1, (hmem e e1).2⟩

theorem osMkdirAll_ok_lookup (fs fs1 : FS) (D : String) (h1 : D ≠ ".") (h2 : D ≠ "/")
    (h : osMkdirAll fs D = (fs1, none)) : lookup fs1 D = some Node.dir := by
  obtain ⟨rest, hrest⟩ := selfAndAncestors_head D
  simp only [osMkdirAll, hrest, osMkdirAllAux, h1, h2, or_self, if_false] at h
  split at h
  · next heq =>
    simp only [Prod.mk.injEq, and_true] at h
    subst h
    unfold osStat at heq
    split at heq
    · cases heq
    · cases hl : lookup fs D with
      | none => rw [hl] at heq; cases heq
      | some n =>
        rw [hl] at heq
        simp only [Prod.mk.injEq, Option.some.injEq] at heq
        rw [heq.1]
  · cases h
  · split at h
    · cases h
    · next fs2 _ =>
      rw [osMkdir_ok_shape fs2 fs1 D h]
      simp [lookup]

theorem writeLocked_ok_mkdir {V : Type} (codec : Codec V) (d : Driver) (fs : FS)
    (c r : String) (v : V) (h : (writeLocked codec d fs c r v).1 = none) :
    (osMkdirAll fs (collectionDir d c)).2 = none := by
  unfold writeLocked at h
  simp only at h
  split at h
  · cases h
  · next heq => rw [heq]

theorem writeLocked_after_mkdir {V : Type} (codec : Codec V) (d : Driver) (fs fs1 : FS)
    (c r D : String) (v : V) (b : String) (hD : collectionDir d c = D)
    (hDne : D.data ≠ []) (hr : '/' ∉ r.data)
    (hjoin : join [D, r ++ ".json"] = D ++ "/" ++ (r ++ ".json"))
    (hb : codec.marshalIndent v "" "\t" = some b)
    (hmk : osMkdirAll fs D = (fs1, none)) (hdir : lookup fs1 D = some Node.dir)
    (hkeys : ∀ e ∈ fs1, e.1 ≠ D ++ "/" ++ (r ++ ".json") ∧
      e.1 ≠ D ++ "/" ++ (r ++ ".json") ++ ".tmp") :
    writeLocked codec d fs c r v =
      (none, (D ++ "/" ++ (r ++ ".json"), Node.file (b ++ "\n")) :: fs1) := by
  have htmp : D ++ "/" ++ (r ++ ".json") ++ ".tmp" = D ++ "/" ++ (r ++ ".json" ++ ".tmp") :=
    String.append_assoc _ _ _
  have hw := ioutilWriteFile_fresh fs1 D (r ++ ".json" ++ ".tmp") (b ++ "\n") hDne
    (noSlash_json_tmp r hr) hdir (fun e he => htmp ▸ (hkeys e he).2)
  have hre := osRename_fresh fs1 D (r ++ ".json") (D ++ "/" ++ (r ++ ".json" ++ ".tmp"))
    (b ++ "\n") hDne (keptElem_json r hr).2.1 hdir
    (fun e he => ⟨(hkeys e he).1, htmp ▸ (hkeys e he).2⟩)
    (by rw [← htmp]; exact append_tmp_ne _) (child_ne_parent D _)
  unfold writeLocked
  simp only [finalPath, tmpPath, hD, hjoin, hmk, hb, htmp, hw, hre]

theorem state_lookup_dir {V : Type} (codec : Codec V) (D : String) (base : FS)
    (done : List (String × V)) (hbase : lookup base D = some Node.dir) :
    lookup (done.reverse.map (storedEntry codec D) ++ base) D = some Node.dir := by
  rw [lookup_append_of_keys]
  · exact hbase
  · intro e he
    simp only [List.mem_map, List.mem_reverse] at he
    obtain ⟨w, _, rfl⟩ := he
    exact fun e => child_ne_parent D _ e.symm

theorem state_keys_fresh {V : Type} (codec : Codec V) (D : String) (base : FS)
    (done : List (String × V)) (r : String)
    (hbase : ∀ e ∈ base, ∀ x : String, e.1 ≠ D ++ "/" ++ x)
    (hnew : r ∉ done.map Prod.fst) :
    ∀ e ∈ done.reverse.map (storedEntry codec D) ++ base,
      e.1 ≠ D ++ "/" ++ (r ++ ".json") ∧ e.1 ≠ D ++ "/" ++ (r ++ ".json") ++ ".tmp" := by
  intro e he
  simp only [List.mem_append, List.mem_map, List.mem_reverse] at he
  rcases he with ⟨w, hw, rfl⟩ | he
  · refine ⟨?_, key_ne_tmp D w.1 r⟩
    intro h
    have : w.1 = r := key_inj D w.1 r h
    exact hnew (this ▸ List.mem_map_of_mem Prod.fst hw)
  · refine ⟨hbase e he _, ?_⟩
    rw [String.append_assoc]
    exact hbase e he _

theorem Write_fresh {V : Type} (codec : Codec V) (d : Driver) (fs fs1 : FS)
    (c r D : String) (v : V) (b : String) (hc : c ≠ "") (hr0 : r ≠ "")
    (hD : collectionDir d c = D) (hDne : D.data ≠ []) (hr : '/' ∉ r.data)
    (hjoin : join [D, r ++ ".json"] = D ++ "/" ++ (r ++ ".json"))
    (hb : codec.marshalIndent v "" "\t" = some b)
    (hmk : osMkdirAll fs D = (fs1, none)) (hdir : lookup fs1 D = some Node.dir)
    (hkeys : ∀ e ∈ fs1, e.1 ≠ D ++ "/" ++ (r ++ ".json") ∧
      e.1 ≠ D ++ "/" ++ (r ++ ".json") ++ ".tmp") :
    Write codec d fs c r v =
      (none, (Write codec d fs c r v).2.1, storedEntry codec D (r, v) :: fs1) := by
  have h := Write_fs codec d fs c r v hc hr0
  rw [writeLocked_after_mkdir codec d fs fs1 c r D v b hD hDne hr hjoin hb hmk hdir
    hkeys] at h
  have h1 : (Write codec d fs c r v).1 = none := congrArg Prod.fst h
  have h2 : (Write codec d fs c r v).2.2 =
      (D ++ "/" ++ (r ++ ".json"), Node.file (b ++ "\n")) :: fs1 :=
    congrArg (fun x => x.2) h
  apply Prod.ext
  · exact h1
  · apply Prod.ext
    · rfl
    · rw [h2]; simp [storedEntry, stored_eq codec v b hb]

theorem Write_empty_resource {V : Type} (codec : Codec V) (d : Driver) (fs : FS)
    (c : String) (v : V) : (Write codec d fs c "" v).1 ≠ none := by
  unfold Write
  by_cases hc : c = "" <;> simp [hc]

theorem Write_empty_collection {V : Type} (codec : Codec V) (d : Driver) (fs : FS)
    (r : String) (v : V) : (Write codec d fs "" r v).1 ≠ none := by
  simp [Write]

theorem collectionDir_congr (d d1 : Driver) (c : String) (h : d1.dir = d.dir) :
    collectionDir d1 c = collectionDir d c := by
  simp [collectionDir, h]

theorem writeAll_shape {V : Type} (codec : Codec V) (c D : String) (base : FS)
    (dir0 : String) (hc : c ≠ "") (hDne : D.data ≠ []) (hdot : D ≠ ".")
    (hroot : D ≠ "/")
    (hjoin : ∀ x : String, keptElem x.data → join [D, x] = D ++ "/" ++ x)
    (hbase1 : lookup base D = some Node.dir)
    (hbase2 : ∀ e ∈ base, ∀ x : String, e.1 ≠ D ++ "/" ++ x) :
    ∀ (rest done : List (String × V)) (d : Driver), d.dir = dir0 →
      collectionDir d c = D →
      (∀ w ∈ rest, '/' ∉ w.1.data) → ((done ++ rest).map Prod.fst).Nodup →
      (∀ w ∈ rest, codec.marshalIndent w.2 "" "\t" ≠ none) →
      ∀ s1, writeAll codec c rest
          (d, done.reverse.map (storedEntry codec D) ++ base) = some s1 →
        s1.2 = (done ++ rest).reverse.map (storedEntry codec D) ++ base ∧
          s1.1.dir = dir0 := by
  have hD0 : D ≠ "" := fun e => hDne (by rw [e])
  intro rest
  induction rest with
  | nil =>
    intro done d hd _ _ _ _ s1 hs
    simp only [writeAll, Option.some.injEq] at hs
    subst hs
    simp [hd]
  | cons w rest ih =>
    intro done d hd hD hslash hnodup henc s1 hs
    obtain ⟨r, v⟩ := w
    have hr : '/' ∉ r.data := hslash (r, v) (by simp)
    obtain ⟨b, hb⟩ : ∃ b, codec.marshalIndent v "" "\t" = some b := by
      have := henc (r, v) (by simp)
      cases h : codec.marshalIndent v "" "\t" with
      | none => exact absurd h this
      | some b => exact ⟨b, rfl⟩
    have hnew : r ∉ done.map Prod.fst := by
      simp only [List.map_append, List.map_cons] at hnodup
      have := (List.nodup_append.mp hnodup).2.2
      intro hmem
      exact this hmem (by simp)
    simp only [writeAll] at hs
    by_cases hr0 : r = ""
    · subst hr0
      have := Write_empty_resource codec d
        (done.reverse.map (storedEntry codec D) ++ base) c v
      split at hs
      · next s2 heq => exact absurd (congrArg Prod.fst heq) this
      · cases hs
    · have hW := Write_fresh codec d _ _ c r D v b hc hr0 hD hDne hr
        (hjoin _ (keptElem_json r hr)) hb
        (osMkdirAll_exists _ D hD0 hdot hroot (state_lookup_dir codec D base done hbase1))
        (state_lookup_dir codec D base done hbase1)
        (state_keys_fresh codec D base done r hbase2 hnew)
      rw [hW] at hs
      simp only at hs
      have hshape : storedEntry codec D (r, v) ::
          (done.reverse.map (storedEntry codec D) ++ base) =
          (done ++ [(r, v)]).reverse.map (storedEntry codec D) ++ base := by
        simp
      rw [hshape] at hs
      have hd1 : (Write codec d (done.reverse.map (storedEntry codec D) ++ base) c r
          v).2.1.dir = dir0 := by rw [Write_dir, hd]
      have := ih (done ++ [(r, v)]) _ hd1
        ((collectionDir_congr d _ c (by rw [hd1, hd])).trans hD)
        (fun w hw => hslash w (by simp [hw]))
        (by simpa using hnodup)
        (fun w hw => henc w (by simp [hw])) s1 hs
      simpa using this

theorem writeAll_fresh {V : Type} (codec : Codec V) (c : String) (fs : FS) (d : Driver)
    (ws : List (String × V)) (hnew : absentBefore fs (collectionDir d c)) (hne : ws ≠ [])
    (hslash : ∀ w ∈ ws, '/' ∉ w.1.data) (hnodup : (ws.map Prod.fst).Nodup)
    (henc : ∀ w ∈ ws, codec.marshalIndent w.2 "" "\t" ≠ none)
    (s1 : Driver × FS) (hs : writeAll codec c ws (d, fs) = some s1) :
    ∃ base : FS, lookup base (collectionDir d c) = some Node.dir ∧
      (∀ e ∈ base, ∀ x : String, e.1 ≠ collectionDir d c ++ "/" ++ x) ∧
      s1.2 = ws.reverse.map (storedEntry codec (collectionDir d c)) ++ base ∧
      s1.1.dir = d.dir ∧ c ≠ "" ∧
      ∀ x : String, keptElem x.data →
        join [collectionDir d c, x] = collectionDir d c ++ "/" ++ x := by
  obtain ⟨hdot, hroot, hfresh⟩ := hnew
  cases ws with
  | nil => exact absurd rfl hne
  | cons w rest =>
    obtain ⟨r, v⟩ := w
    simp only [writeAll] at hs
    by_cases hc : c = ""
    · subst hc
      have := Write_empty_collection codec d fs r v
      split at hs
      · next s2 heq => exact absurd (congrArg Prod.fst heq) this
      · cases hs
    · by_cases hr0 : r = ""
      · subst hr0
        have := Write_empty_resource codec d fs c v
        split at hs
        · next s2 heq => exact absurd (congrArg Prod.fst heq) this
        · cases hs
      · have hDne : (collectionDir d c).data ≠ [] := by
          unfold collectionDir
          rw [join_two d.dir c hc]
          exact cleanChars_ne_nil _
        have hD0 : collectionDir d c ≠ "" := fun e => hDne (by rw [e])
        have hjoin : ∀ x : String, keptElem x.data →
            join [collectionDir d c, x] = collectionDir d c ++ "/" ++ x :=
          fun x hx => join_join_child d.dir c x hc hx hdot hroot
        have hr : '/' ∉ r.data := hslash (r, v) (by simp)
        obtain ⟨b, hb⟩ : ∃ b, codec.marshalIndent v "" "\t" = some b := by
          have := henc (r, v) (by simp)
          cases h : codec.marshalIndent v "" "\t" with
          | none => exact absurd h this
          | some b => exact ⟨b, rfl⟩
        have hW1 : (Write codec d fs c r v).1 = none := by
          split at hs
          · next s2 heq => exact congrArg Prod.fst heq
          · cases hs
        have hwl : (writeLocked codec d fs c r v).1 = none := by
          rw [← Write_fs codec d fs c r v hc hr0]; exact hW1
        have hmk2 := writeLocked_ok_mkdir codec d fs c r v hwl
        have hmk : osMkdirAll fs (collectionDir d c) =
            ((osMkdirAll fs (collectionDir d c)).1, none) := by
          rw [← hmk2]
        obtain ⟨A, hA, hAmem⟩ := osMkdirAllAux_ok_shape _ fs _ hmk
        have hbase1 := osMkdirAll_ok_lookup fs _ (collectionDir d c) hdot hroot hmk
        have hbase2 : ∀ e ∈ (osMkdirAll fs (collectionDir d c)).1, ∀ x : String,
            e.1 ≠ collectionDir d c ++ "/" ++ x := by
          intro e he x heq
          rw [hA] at he
          rcases List.mem_append.mp he with h | h
          · have hlen := selfAndAncestors_length _ _ (hAmem e h).1
            rw [heq] at hlen
            simp [String.data_append] at hlen
          · have := hfresh e h
            rw [heq, under_child _ _ hD0] at this
            cases this
        have hkeys := state_keys_fresh codec (collectionDir d c)
          (osMkdirAll fs (collectionDir d c)).1 ([] : List (String × V)) r hbase2 (by simp)
        simp only [List.reverse_nil, List.map_nil, List.nil_append] at hkeys
        have hW := Write_fresh codec d fs _ c r (collectionDir d c) v b hc hr0 rfl hDne hr
          (hjoin _ (keptElem_json r hr)) hb hmk hbase1 hkeys
        rw [hW] at hs
        simp only at hs
        have hd1 : (Write codec d fs c r v).2.1.dir = d.dir := Write_dir codec d fs c r v
        have := writeAll_shape codec c (collectionDir d c)
          (osMkdirAll fs (collectionDir d c)).1 d.dir hc hDne hdot hroot hjoin hbase1 hbase2
          rest [(r, v)] (Write codec d fs c r v).2.1 hd1
          (collectionDir_congr d _ c hd1)
          (fun w hw => hslash w (by simp [hw])) (by simpa using hnodup)
          (fun w hw => henc w (by simp [hw])) s1 (by simpa using hs)
        exact ⟨_, hbase1, hbase2, by simpa using this.1, this.2, hc, hjoin⟩

theorem readAllLoop_map (fs : FS) (dir : String) (names : List String) (acc : List String)
    (h : ∀ name ∈ names, (ioutilReadFile fs (join [dir, name])).2 = none) :
    readAllLoop fs dir names acc =
      (acc ++ names.map (fun name => (ioutilReadFile fs (join [dir, name])).1), none) := by
  induction names generalizing acc with
  | nil => simp [readAllLoop]
  | cons name rest ih =>
    have h1 := h name (by simp)
    simp only [readAllLoop]
    split
    · next b e heq => rw [heq] at h1; cases h1
    · next b heq =>
      rw [ih _ (fun n hn => h n (by simp [hn]))]
      simp [heq]

theorem lookup_storedEntry {V : Type} (codec : Codec V) (c : String) (t : FS)
    (l : List (String × V)) (w : String × V) (hw : w ∈ l)
    (hnodup : (l.map Prod.fst).Nodup) :
    lookup (l.map (storedEntry codec c) ++ t) (storedEntry codec c w).1 =
      some (storedEntry codec c w).2 := by
  induction l with
  | nil => cases hw
  | cons w1 rest ih =>
    simp only [List.map_cons, List.nodup_cons] at hnodup
    simp only [List.map_cons, List.cons_append]
    by_cases hk : (storedEntry codec c w1).1 = (storedEntry codec c w).1
    · have hname : w1.1 = w.1 := key_inj c _ _ hk
      have hww : w = w1 := by
        rcases List.mem_cons.mp hw with h | h
        · exact h
        · exact absurd (hname ▸ List.mem_map_of_mem Prod.fst h) hnodup.1
      subst hww
      unfold lookup
      simp
    · have hin : w ∈ rest := by
        rcases List.mem_cons.mp hw with h | h
        · subst h; exact absurd rfl hk
        · exact h
      have := ih hin hnodup.2
      unfold lookup
      simp only [hk, if_false]
      exact this

theorem filterMap_childName_none (D : String) (base : FS)
    (hbase : ∀ e ∈ base, ∀ x : String, e.1 ≠ D ++ "/" ++ x) :
    base.filterMap (fun e => childName D e.1) = [] := by
  rw [List.filterMap_eq_nil_iff]
  intro e he
  cases h : childName D e.1 with
  | none => rfl
  | some x => exact absurd (childName_eq D e.1 x h) (hbase e he x)

theorem state_names {V : Type} (codec : Codec V) (D : String) (base : FS)
    (l : List (String × V)) (hbase : ∀ e ∈ base, ∀ x : String, e.1 ≠ D ++ "/" ++ x)
    (hslash : ∀ w ∈ l, '/' ∉ w.1.data) :
    (l.map (storedEntry codec D) ++ base).filterMap
        (fun e => childName D e.1) = l.map (fun w => w.1 ++ ".json") := by
  rw [List.filterMap_append, filterMap_childName_none D base hbase, List.append_nil,
    List.filterMap_map]
  induction l with
  | nil => rfl
  | cons w rest ih =>
    have hk := keptElem_json w.1 (hslash w (by simp))
    simp only [List.filterMap_cons, Function.comp, storedEntry,
      childName_child D (w.1 ++ ".json") hk.1 hk.2.1, List.map_cons]
    rw [← ih (fun w hw => hslash w (by simp [hw]))]

theorem stat_of_osStat (fs : FS) (p : String) (n : Node)
    (h : osStat fs p = (some n, none)) : stat fs p = (some n, none) := by
  simp [stat, h, isNotExist]

theorem readFile_stored {V : Type} (codec : Codec V) (D : String) (t : FS)
    (l : List (String × V)) (w : String × V)
    (hjoin : ∀ x : String, keptElem x.data → join [D, x] = D ++ "/" ++ x)
    (hw : w ∈ l) (hslash : ∀ w ∈ l, '/' ∉ w.1.data) (hnodup : (l.map Prod.fst).Nodup) :
    ioutilReadFile (l.map (storedEntry codec D) ++ t) (join [D, w.1 ++ ".json"]) =
      (stored codec w.2, none) := by
  rw [hjoin _ (keptElem_json w.1 (hslash w hw))]
  have hne : D ++ "/" ++ (w.1 ++ ".json") ≠ "" :=
    append_ne_empty _ _ (append_ne_empty _ _ (by decide))
  exact ioutilReadFile_of_lookup _ _ _ hne (lookup_storedEntry codec D t l w hw hnodup)

/-- C8, as stated, fails in three ways: the distinct resource names `a` and
`./a` name one file, so two successful writes leave one entry; a value that
cannot be encoded is written "successfully" and leaves no entry; and with no
write at all the collection does not exist and `ReadAll` returns an error. -/
theorem readAll_count_fails :
    (writeAll sampleCodec "c" [("a", Sample.john), ("./a", Sample.alice)]
      ({ mutexes := [], dir := "", locked := [] }, [])).map
        (fun s => ReadAll s.1 s.2 "c") =
      some (["\x7b\n\t\"Name\": \"Alice\"\n\x7d\n"], none) ∧
    (writeAll sampleCodec "c" [("a", Sample.channel)]
      ({ mutexes := [], dir := "", locked := [] }, [])).map
        (fun s => ReadAll s.1 s.2 "c") = some ([], none) ∧
    (writeAll sampleCodec "c" []
      ({ mutexes := [], dir := "", locked := [] }, [])).map
        (fun s => ReadAll s.1 s.2 "c") = some ([], some Error.notExist) := by
  decide

/-- C8, amended. For every driver and every collection whose directory did not
exist before (nothing at its path or beneath it), and every non-empty list of
writes into it whose resource names are distinct and free of slashes and whose
values can be encoded: when every `Write` returns no error, `ReadAll` returns no
error and a list that is a permutation of the texts stored, one per write. -/
theorem readAll_after_writes {V : Type} (codec : Codec V) (d : Driver) (fs : FS)
    (c : String) (ws : List (String × V)) (s1 : Driver × FS)
    (hnew : absentBefore fs (collectionDir d c)) (hne : ws ≠ [])
    (hslash : ∀ w ∈ ws, '/' ∉ w.1.data) (hnodup : (ws.map Prod.fst).Nodup)
    (henc : ∀ w ∈ ws, codec.marshalIndent w.2 "" "\t" ≠ none)
    (hs : writeAll codec c ws (d, fs) = some s1) :
    (ReadAll s1.1 s1.2 c).2 = none ∧
    List.Perm (ReadAll s1.1 s1.2 c).1 (ws.map (fun w => stored codec w.2)) := by
  obtain ⟨base, hbase1, hbase2, hF, hdir, hc0, hjoin⟩ :=
    writeAll_fresh codec c fs d ws hnew hne hslash hnodup henc s1 hs
  have hD0 : collectionDir d c ≠ "" := by
    intro e
    have := hbase1
    rw [e] at this
    have h2 := hjoin ".json" (by decide)
    rw [e] at h2
    revert h2
    decide
  have hslashR : ∀ w ∈ ws.reverse, '/' ∉ w.1.data :=
    fun w hw => hslash w (List.mem_reverse.mp hw)
  have hnodupR : (ws.reverse.map Prod.fst).Nodup := by
    rw [List.map_reverse]; exact List.nodup_reverse.mpr hnodup
  have hstatdir : osStat s1.2 (collectionDir d c) = (some Node.dir, none) := by
    rw [hF]; exact osStat_of_lookup _ _ _ hD0 (state_lookup_dir codec _ base ws hbase1)
  have hnames := state_names codec (collectionDir d c) base ws.reverse hbase2 hslashR
  rw [← hF] at hnames
  have hdirlist : ioutilReadDir s1.2 (collectionDir d c) =
      ((ws.reverse.map (fun w => w.1 ++ ".json")).insertionSort
        (fun a b => leChars a.data b.data = true), none) := by
    simp only [ioutilReadDir, hstatdir, hnames]
  have hperm := List.perm_insertionSort (fun a b => leChars a.data b.data = true)
    (ws.reverse.map (fun w => w.1 ++ ".json"))
  have hread : ∀ w ∈ ws.reverse,
      ioutilReadFile s1.2 (join [collectionDir d c, w.1 ++ ".json"]) =
        (stored codec w.2, none) := by
    intro w hw
    rw [hF]
    exact readFile_stored codec _ _ ws.reverse w hjoin hw hslashR hnodupR
  have hall : ∀ name ∈ (ws.reverse.map (fun w => w.1 ++ ".json")).insertionSort
      (fun a b => leChars a.data b.data = true),
      (ioutilReadFile s1.2 (join [collectionDir d c, name])).2 = none := by
    intro name hn
    have := (hperm.mem_iff).mp hn
    simp only [List.mem_map] at this
    obtain ⟨w, hw, rfl⟩ := this
    rw [hread w hw]
  have hdirEq : join [s1.1.dir, c] = collectionDir d c := by
    rw [hdir]; rfl
  have hR : ReadAll s1.1 s1.2 c =
      ([] ++ ((ws.reverse.map (fun w => w.1 ++ ".json")).insertionSort
        (fun a b => leChars a.data b.data = true)).map
          (fun name => (ioutilReadFile s1.2 (join [collectionDir d c, name])).1), none) := by
    unfold ReadAll
    simp only [hc0, if_false, hdirEq, stat_of_osStat _ _ _ hstatdir, hdirlist]
    exact readAllLoop_map s1.2 _ _ [] hall
  rw [hR]
  refine ⟨rfl, ?_⟩
  simp only [List.nil_append]
  refine (hperm.map _).trans ?_
  rw [List.map_map]
  have : ws.reverse.map
      ((fun name => (ioutilReadFile s1.2 (join [collectionDir d c, name])).1) ∘
      (fun w => w.1 ++ ".json")) = ws.reverse.map (fun w => stored codec w.2) := by
    apply List.map_congr_left
    intro w hw
    simp only [Function.comp, hread w hw]
  rw [this]
  exact (List.reverse_perm ws).map _

/-- C8, amended, at two records written into the new nested collection
`Users/archive`. -/
theorem readAll_after_writes_witness :
    (ReadAll ({ mutexes := [("Users/archive", 1)], dir := "", locked := [] } : Driver)
      [("Users/archive/Alice.json", Node.file "\x7b\n\t\"Name\": \"Alice\"\n\x7d\n"),
        ("Users/archive/John.json", Node.file "\x7b\n\t\"Name\": \"John\"\n\x7d\n"),
        ("Users/archive", Node.dir), ("Users", Node.dir)] "Users/archive").2 = none ∧
    List.Perm
      (ReadAll ({ mutexes := [("Users/archive", 1)], dir := "", locked := [] } : Driver)
        [("Users/archive/Alice.json", Node.file "\x7b\n\t\"Name\": \"Alice\"\n\x7d\n"),
          ("Users/archive/John.json", Node.file "\x7b\n\t\"Name\": \"John\"\n\x7d\n"),
          ("Users/archive", Node.dir), ("Users", Node.dir)] "Users/archive").1
      ([("John", Sample.john), ("Alice", Sample.alice)].map
        (fun w => stored sampleCodec w.2)) :=
  readAll_after_writes sampleCodec { mutexes := [], dir := "", locked := [] } []
    "Users/archive" [("John", Sample.john), ("Alice", Sample.alice)]
    ({ mutexes := [("Users/archive", 1)], dir := "", locked := [] },
      [("Users/archive/Alice.json", Node.file "\x7b\n\t\"Name\": \"Alice\"\n\x7d\n"),
        ("Users/archive/John.json", Node.file "\x7b\n\t\"Name\": \"John\"\n\x7d\n"),
        ("Users/archive", Node.dir), ("Users", Node.dir)])
    (by decide) (by simp) (by decide) (by decide) (by decide) (by decide)

end Database
